import Mathlib

/-!
Verification development for a Bitcask-style append-only key/value store
(Rust sources: src/db.rs, src/batch.rs, src/merge.rs, src/data/data_file.rs,
src/data/log_record.rs, src/index/btree.rs, src/fio/file_io.rs).

Shallow embedding conventions:
* Byte sequences (Rust `Vec<u8>` / `Bytes`) are `List Nat`.
* Machine integers (`u32`, `u64`, `usize`) are `Nat`; none of the modelled
  arithmetic can overflow on reachable inputs.
* Fallible Rust code returns `Except Errors`; a Rust `panic!`/`unwrap` failure
  is modelled by an outer `Option` being `none`.
* A data file's on-disk contents are modelled at record granularity: the list
  of framed records in file order.  `readLogRecord` resolves a byte offset
  against the framing sizes (`encodedLength`), returning the EOF sentinel at
  or past the end and a CRC failure on a misaligned offset, exactly as a
  byte-level reader would observe.  `DataFileBytes` additionally models the
  byte-level handle of src/data/data_file.rs for offset bookkeeping.
-/

/-- Error type of src/errors.rs (variants relevant to the embedded code). -/
inductive Errors where
  | ReadFromDataFileError
  | WriteToDataFileError
  | KeyIsEmpty
  | FailedToUpdateIndex
  | KeyNotFound
  | DataFileNotFound
  | ReadDataFileEof
  | InvalidLogRecordCrc
  | BatchSizeExceeded
  | UnableToUseWriteBatch
  deriving DecidableEq

/-- Record type tags of src/data/log_record.rs (`LogRecordType`). -/
inductive LogRecordType where
  | Normal
  | Deleted
  | TxnFinished
  deriving DecidableEq

/-- Index backend selector of src/options.rs (`IndexType`). -/
inductive IndexType where
  | BTree
  | SkipList
  | BPlusTree
  deriving DecidableEq

/-- One log record (src/data/log_record.rs `LogRecord`). -/
structure LogRecord where
  key : List Nat
  value : List Nat
  rec_type : LogRecordType
  deriving DecidableEq

/-- Record position in the log (src/data/log_record.rs `LogRecordPos`). -/
structure LogRecordPos where
  file_id : Nat
  offset : Nat
  deriving DecidableEq

/-- Fuel-indexed body of prost's base-128 varint encoder
(`encode_length_delimiter`): emit the low seven bits with the continuation
bit set while the value needs more than seven bits.  The fuel only bounds the
loop; it is never exhausted when started at the value itself. -/
def encodeVarintGo : Nat → Nat → List Nat
  | 0, n => [n % 128]
  | fuel + 1, n => if n < 128 then [n] else (n % 128 + 128) :: encodeVarintGo fuel (n / 128)

/-- prost `encode_length_delimiter`: LEB128 encoding of a length / sequence
number. -/
def encodeVarint (n : Nat) : List Nat :=
  encodeVarintGo n n

/-- prost `decode_length_delimiter`: read base-128 groups, low group first,
until a byte without the continuation bit; `none` models the decode error on
a truncated buffer. -/
def decodeVarint : List Nat → Option (Nat × List Nat)
  | [] => none
  | b :: rest =>
    if b < 128 then some (b, rest)
    else
      match decodeVarint rest with
      | some (m, r) => some (m * 128 + (b - 128), r)
      | none => none

/-- Number of bytes of the varint encoding (prost `length_delimiter_len`). -/
def lengthDelimiterLen (n : Nat) : Nat :=
  (encodeVarint n).length

/-- src/batch.rs `get_record_sequence_number_with_key`: prefix a key with the
varint-encoded sequence number. -/
def get_record_sequence_number_with_key (key : List Nat) (sequence_number : Nat) : List Nat :=
  encodeVarint sequence_number ++ key

/-- src/batch.rs `parse_record_sequence_number_with_key`: split a stored key
into its sequence number and the real key.  The source unwraps the decode
result; `none` models that panic. -/
def parse_record_sequence_number_with_key (key : List Nat) : Option (Nat × List Nat) :=
  decodeVarint key

/-- src/data/log_record.rs `LogRecord::encoded_length`: one type byte, two
varint length delimiters, key bytes, value bytes, four CRC bytes. -/
def encodedLength (r : LogRecord) : Nat :=
  1 + lengthDelimiterLen r.key.length + lengthDelimiterLen r.value.length
    + r.key.length + r.value.length + 4

/-- Result of src/data/data_file.rs `read_log_record` (`ReadLogRecord`):
the decoded record together with its framed size. -/
structure ReadLogRecord where
  record : LogRecord
  size : Nat
  deriving DecidableEq

/-- src/data/data_file.rs `read_log_record`, at record granularity over the
file's framed records: offset `0` of a non-empty tail is a record boundary;
an offset inside a frame yields the CRC failure a byte-level reader reports
on garbage; an offset at or past the end reads a zeroed header (both lengths
zero) and returns the EOF sentinel. -/
def readLogRecord : List LogRecord → Nat → Except Errors ReadLogRecord
  | [], _ => .error .ReadDataFileEof
  | r :: rest, offset =>
    if offset = 0 then .ok ⟨r, encodedLength r⟩
    else if offset < encodedLength r then .error .InvalidLogRecordCrc
    else readLogRecord rest (offset - encodedLength r)

/-- Total framed size of a file's records (its on-disk size in bytes). -/
def fileSize (rs : List LogRecord) : Nat :=
  (rs.map encodedLength).sum

/-- One numbered data file handle (src/data/data_file.rs `DataFile`), at
record granularity: the file id, the framed records on disk, and the handle's
write offset. -/
structure DataFile where
  file_id : Nat
  records : List LogRecord
  write_offset : Nat
  deriving DecidableEq

/-- src/data/data_file.rs `DataFile::new`: open or create the numbered file.
The source initialises `write_offset` with `Default::default()`, i.e. `0`,
irrespective of the on-disk contents. -/
def DataFile.new (file_id : Nat) (onDisk : List LogRecord) : DataFile :=
  { file_id := file_id, records := onDisk, write_offset := 0 }

/-- src/data/data_file.rs `DataFile::write` at record granularity: append the
encoded record; the backend write (src/fio/file_io.rs) appends the whole
buffer and returns its length, which bumps the write offset. -/
def DataFile.writeRecord (f : DataFile) (r : LogRecord) : DataFile :=
  { f with records := f.records ++ [r], write_offset := f.write_offset + encodedLength r }

/-- Byte-level model of a `DataFile` handle for the offset-vs-size claims:
`content` is the file's bytes on disk. -/
structure DataFileBytes where
  file_id : Nat
  content : List Nat
  write_offset : Nat
  deriving DecidableEq

/-- src/data/data_file.rs `DataFile::new`, byte level: opens or creates
`NNNNNNNNN.data` over the existing on-disk bytes and initialises the write
offset with `Default::default()` (zero). -/
def DataFileBytes.new (file_id : Nat) (onDisk : List Nat) : DataFileBytes :=
  { file_id := file_id, content := onDisk, write_offset := 0 }

/-- On-disk size of the byte-level handle (src/fio `IOManager::size`). -/
def DataFileBytes.size (f : DataFileBytes) : Nat :=
  f.content.length

/-- src/data/data_file.rs `DataFile::write`: the standard-file backend
(src/fio/file_io.rs, append mode) appends the buffer and reports the number
of bytes written; the handle then adds that count to its write offset.
Returns the new handle and the byte count. -/
def DataFileBytes.write (f : DataFileBytes) (buf : List Nat) : DataFileBytes × Nat :=
  ({ f with content := f.content ++ buf, write_offset := f.write_offset + buf.length },
   buf.length)

/-- src/data/data_file.rs `DataFile::set_write_offset`. -/
def DataFileBytes.set_write_offset (f : DataFileBytes) (o : Nat) : DataFileBytes :=
  { f with write_offset := o }

/-- In-memory index of the BTree backend (src/index/btree.rs): a `BTreeMap`
modelled as an association list with unique keys maintained by `put`. -/
abbrev BTreeIndex : Type :=
  List (List Nat × LogRecordPos)

/-- src/index/btree.rs `get`: `BTreeMap::get`. -/
def BTreeIndex.get : BTreeIndex → List Nat → Option LogRecordPos
  | [], _ => none
  | (k', p) :: rest, k => if k' = k then some p else BTreeIndex.get rest k

/-- src/index/btree.rs `put`: `BTreeMap::insert` (replace or add); always
reports success. -/
def BTreeIndex.put : BTreeIndex → List Nat → LogRecordPos → BTreeIndex
  | [], k, p => [(k, p)]
  | (k', p') :: rest, k, p =>
    if k' = k then (k, p) :: rest else (k', p') :: BTreeIndex.put rest k p

/-- src/index/btree.rs `delete`: `BTreeMap::remove`, dropping the entry. -/
def BTreeIndex.delete : BTreeIndex → List Nat → BTreeIndex
  | [], _ => []
  | (k', p') :: rest, k =>
    if k' = k then rest else (k', p') :: BTreeIndex.delete rest k

/-- src/index/btree.rs `delete` result: `BTreeMap::remove(..).is_some()`,
i.e. whether the key was present. -/
def BTreeIndex.contains (idx : BTreeIndex) (k : List Nat) : Bool :=
  (BTreeIndex.get idx k).isSome

/-- `NON_TRANSACTION_SEQ_NUMBER` of src/batch.rs. -/
def NON_TRANSACTION_SEQ_NUMBER : Nat := 0

/-- The bytes of `TX_FIN_KEY` (src/batch.rs, the ASCII string txn-fin). -/
def TX_FIN_KEY : List Nat := [116, 120, 110, 45, 102, 105, 110]

/-- The engine state (src/db.rs `Engine`) relevant to the claims: the options
fields it consults, the active file, the frozen files (the `HashMap` is
modelled as the association list of its insertions; inserted ids are always
fresh), the BTree index, and the atomic sequence counter. -/
structure Engine where
  data_file_size : Nat
  index_type : IndexType
  active_file : DataFile
  older_files : List (Nat × DataFile)
  index : BTreeIndex
  sequence_number : Nat
  deriving DecidableEq

/-- `HashMap::get` on the frozen-file map. -/
def olderGet : List (Nat × DataFile) → Nat → Option DataFile
  | [], _ => none
  | (id, f) :: rest, fid => if id = fid then some f else olderGet rest fid

/-- src/db.rs `Engine::append_log_record`: rotate when the record would
overflow `data_file_size` (the frozen handle is reopened via `DataFile::new`,
so its write offset restarts at zero), then append to the active file and
return the position of the record's first byte.  File sync effects carry no
state in this model. -/
def appendLogRecord (e : Engine) (record : LogRecord) : Engine × LogRecordPos :=
  let record_len := encodedLength record
  let e' :=
    if e.data_file_size < e.active_file.write_offset + record_len then
      let current_file_id := e.active_file.file_id
      let old_active_file := DataFile.new current_file_id e.active_file.records
      { e with
          older_files := e.older_files ++ [(current_file_id, old_active_file)],
          active_file := DataFile.new (current_file_id + 1) [] }
    else e
  let write_offset := e'.active_file.write_offset
  ({ e' with active_file := e'.active_file.writeRecord record },
   ⟨e'.active_file.file_id, write_offset⟩)

/-- src/db.rs `Engine::put`: reject the empty key, append a Normal record
whose stored key carries sequence number zero, then insert the original key
into the index (the BTree backend always reports success).  The returned
engine is unchanged on the error path. -/
def Engine.put (e : Engine) (key value : List Nat) : Engine × Except Errors Unit :=
  if key = [] then (e, .error .KeyIsEmpty)
  else
    let record : LogRecord :=
      ⟨get_record_sequence_number_with_key key NON_TRANSACTION_SEQ_NUMBER, value, .Normal⟩
    let (e', record_position) := appendLogRecord e record
    ({ e' with index := BTreeIndex.put e'.index key record_position }, .ok ())

/-- src/db.rs `Engine::get_value_by_position`: read from the active file when
the ids match, otherwise from the frozen map; a Deleted record reads back as
`KeyNotFound`. -/
def getValueByPosition (e : Engine) (position : LogRecordPos) : Except Errors (List Nat) :=
  let readRes : Except Errors ReadLogRecord :=
    if e.active_file.file_id = position.file_id then
      readLogRecord e.active_file.records position.offset
    else
      match olderGet e.older_files position.file_id with
      | none => .error .DataFileNotFound
      | some data_file => readLogRecord data_file.records position.offset
  match readRes with
  | .error er => .error er
  | .ok rr =>
    if rr.record.rec_type = .Deleted then .error .KeyNotFound else .ok rr.record.value

/-- src/db.rs `Engine::get`: reject the empty key, look the key up in the
index, dereference the position. -/
def Engine.get (e : Engine) (key : List Nat) : Except Errors (List Nat) :=
  if key = [] then .error .KeyIsEmpty
  else
    match BTreeIndex.get e.index key with
    | none => .error .KeyNotFound
    | some position => getValueByPosition e position

/-- src/db.rs `Engine::delete`: reject the empty key, require the key in the
index, append a Deleted tombstone with sequence number zero, remove the key
from the index (failure of the removal surfaces as `FailedToUpdateIndex`). -/
def Engine.delete (e : Engine) (key : List Nat) : Engine × Except Errors Unit :=
  if key = [] then (e, .error .KeyIsEmpty)
  else
    match BTreeIndex.get e.index key with
    | none => (e, .error .KeyNotFound)
    | some _ =>
      let record : LogRecord :=
        ⟨get_record_sequence_number_with_key key NON_TRANSACTION_SEQ_NUMBER, [], .Deleted⟩
      let (e', _) := appendLogRecord e record
      if BTreeIndex.contains e'.index key then
        ({ e' with index := BTreeIndex.delete e'.index key }, .ok ())
      else (e', .error .FailedToUpdateIndex)

/-- Write-batch options (src/options.rs `WriteBatchOptions`). -/
structure WriteBatchOptions where
  max_batch_size : Nat
  sync_write : Bool
  deriving DecidableEq

/-- Lookup in the `positions` map built during commit (`HashMap::get`). -/
def positionsGet : List (List Nat × LogRecordPos) → List Nat → Option LogRecordPos
  | [], _ => none
  | (k, p) :: rest, key => if k = key then some p else positionsGet rest key

/-- First commit loop of src/batch.rs `WriteBatch::commit`: re-key each
staged record with the allocated sequence number, append it, and remember the
returned position under the staging key. -/
def commitAppendLoop (sequence_number : Nat) :
    List (List Nat × LogRecord) → Engine → List (List Nat × LogRecordPos) →
    Engine × List (List Nat × LogRecordPos)
  | [], e, positions => (e, positions)
  | (key, record) :: rest, e, positions =>
    let record' : LogRecord :=
      ⟨get_record_sequence_number_with_key key sequence_number, record.value, record.rec_type⟩
    let (e', pos) := appendLogRecord e record'
    commitAppendLoop sequence_number rest e' (positions ++ [(key, pos)])

/-- Second commit loop of src/batch.rs `WriteBatch::commit` (the drain):
apply every staged record to the index; a Normal record unwraps its position
from the `positions` map (`none` models that unwrap panicking). -/
def commitIndexLoop (positions : List (List Nat × LogRecordPos)) :
    List (List Nat × LogRecord) → Engine → Option Engine
  | [], e => some e
  | (_, record) :: rest, e =>
    match record.rec_type with
    | .Normal =>
      match positionsGet positions record.key with
      | none => none
      | some pos =>
        commitIndexLoop positions rest
          { e with index := BTreeIndex.put e.index record.key pos }
    | .Deleted =>
      commitIndexLoop positions rest { e with index := BTreeIndex.delete e.index record.key }
    | .TxnFinished => commitIndexLoop positions rest e

/-- src/batch.rs `WriteBatch::commit` over the staged map (modelled as the
association list of its entries): return `Ok` untouched on an empty staged
set; fail with `BatchSizeExceeded` above `max_batch_size`; otherwise allocate
one sequence number with `fetch_add(1)` (which yields the pre-increment
value), append every staged record re-keyed with it, append the terminating
`TxnFinished` record, and apply the staged entries to the index.  The outer
`Option` is `none` when the drain loop's unwrap panics. -/
def WriteBatch.commit (pending_writes : List (List Nat × LogRecord))
    (options : WriteBatchOptions) (e : Engine) : Option (Engine × Except Errors Unit) :=
  if pending_writes = [] then some (e, .ok ())
  else if options.max_batch_size < pending_writes.length then
    some (e, .error .BatchSizeExceeded)
  else
    let sequence_number := e.sequence_number
    let e₁ := { e with sequence_number := e.sequence_number + 1 }
    let (e₂, positions) := commitAppendLoop sequence_number pending_writes e₁ []
    let finished_record : LogRecord :=
      ⟨get_record_sequence_number_with_key TX_FIN_KEY sequence_number, [], .TxnFinished⟩
    let (e₃, _) := appendLogRecord e₂ finished_record
    match commitIndexLoop positions pending_writes e₃ with
    | none => none
    | some e₄ => some (e₄, .ok ())

/-- All framed records the engine's directory holds, in log order: frozen
files in freeze order (ids ascend along the association list), then the
active file. -/
def allRecords (e : Engine) : List LogRecord :=
  (e.older_files.map fun kv => kv.2.records).flatten ++ e.active_file.records

/-- A buffered transactional record (src/data/log_record.rs
`TransactionRecord`): the record with its key already stripped to the real
key, plus its position. -/
structure TransactionRecord where
  record : LogRecord
  position : LogRecordPos
  deriving DecidableEq

/-- The `transaction_records` map of src/db.rs
`load_index_from_data_files` (`HashMap<usize, Vec<TransactionRecord>>`),
as the association list of its live entries. -/
abbrev TxnGroups : Type :=
  List (Nat × List TransactionRecord)

/-- `HashMap::remove(&seq)` value: the buffered group, if present. -/
def groupsGet : TxnGroups → Nat → Option (List TransactionRecord)
  | [], _ => none
  | (s, trs) :: rest, seq => if s = seq then some trs else groupsGet rest seq

/-- `HashMap::remove(&seq)` effect: drop the group. -/
def groupsRemove : TxnGroups → Nat → TxnGroups
  | [], _ => []
  | (s, trs) :: rest, seq =>
    if s = seq then rest else (s, trs) :: groupsRemove rest seq

/-- `transaction_records.entry(seq).or_default().push(tr)`. -/
def groupsPush : TxnGroups → Nat → TransactionRecord → TxnGroups
  | [], seq, tr => [(seq, [tr])]
  | (s, trs) :: rest, seq, tr =>
    if s = seq then (s, trs ++ [tr]) :: rest else (s, trs) :: groupsPush rest seq tr

/-- One application of src/db.rs `Engine::update_index`: a Normal record is
inserted, a Deleted record is removed (removal of an absent key is the
backend reporting `false`, surfaced as `FailedToUpdateIndex`), a TxnFinished
record is a no-op. -/
def update_index (idx : BTreeIndex) (key : List Nat) (rec_type : LogRecordType)
    (record_pos : LogRecordPos) : Except Errors BTreeIndex :=
  match rec_type with
  | .Normal => .ok (BTreeIndex.put idx key record_pos)
  | .Deleted =>
    if BTreeIndex.contains idx key then .ok (BTreeIndex.delete idx key)
    else .error .FailedToUpdateIndex
  | .TxnFinished => .ok idx

/-- An index application observed during the startup scan: the real key, the
record type and the record position handed to `update_index`. -/
abbrev AppliedEntry : Type :=
  List Nat × LogRecordType × LogRecordPos

/-- The state threaded through src/db.rs `load_index_from_data_files`: the
index under construction, the buffered transaction groups, the running
maximum sequence number, and (as observable instrumentation of the scan) the
trace of `update_index` applications in order. -/
structure ScanState where
  index : BTreeIndex
  groups : TxnGroups
  current_seq : Nat
  applied : List AppliedEntry
  deriving DecidableEq

/-- The inner loop body of `TxnFinished` handling: apply every buffered
record of the finished group to the index, in buffer order. -/
def applyGroup (idx : BTreeIndex) : List TransactionRecord → Except Errors BTreeIndex
  | [] => .ok idx
  | tr :: rest =>
    match update_index idx tr.record.key tr.record.rec_type tr.position with
    | .error er => .error er
    | .ok idx' => applyGroup idx' rest

/-- The trace entries contributed by applying a buffered group. -/
def groupApplied (trs : List TransactionRecord) : List AppliedEntry :=
  trs.map fun tr => (tr.record.key, tr.record.rec_type, tr.position)

/-- Processing of one framed record by src/db.rs
`load_index_from_data_files` (the loop body at the given file id and byte
offset): parse the stored key (the source unwraps, so a parse failure is the
outer `none`); a sequence number of zero is applied immediately; a
`TxnFinished` record flushes its buffered group (`remove(..).unwrap()`
panics — `none` — when the group is absent); any other transactional record
is buffered with its key stripped.  Finally the running maximum sequence
number is updated. -/
def scanRecordStep (fid offset : Nat) (r : LogRecord) (st : ScanState) :
    Option (Except Errors ScanState) :=
  match parse_record_sequence_number_with_key r.key with
  | none => none
  | some (seq_number, key) =>
    let record_pos : LogRecordPos := ⟨fid, offset⟩
    let stepped : Option (Except Errors ScanState) :=
      if seq_number = NON_TRANSACTION_SEQ_NUMBER then
        match update_index st.index key r.rec_type record_pos with
        | .error er => some (.error er)
        | .ok idx =>
          some (.ok { st with
            index := idx,
            applied := st.applied ++ [(key, r.rec_type, record_pos)] })
      else if r.rec_type = .TxnFinished then
        match groupsGet st.groups seq_number with
        | none => none
        | some transaction_records =>
          match applyGroup st.index transaction_records with
          | .error er => some (.error er)
          | .ok idx =>
            some (.ok { st with
              index := idx,
              groups := groupsRemove st.groups seq_number,
              applied := st.applied ++ groupApplied transaction_records })
      else
        some (.ok { st with
          groups := groupsPush st.groups seq_number ⟨⟨key, r.value, r.rec_type⟩, record_pos⟩ })
    match stepped with
    | some (.ok st') =>
      some (.ok { st' with current_seq := max st'.current_seq seq_number })
    | other => other

/-- The sequential scan of one data file by src/db.rs
`load_index_from_data_files`, from the given byte offset: each iteration
reads the framed record at the offset (always aligned, so the record list
drives the recursion) and advances by its framed size; the `ReadDataFileEof`
sentinel at the end breaks out of the file. -/
def scanFile (fid : Nat) : Nat → ScanState → List LogRecord →
    Option (Except Errors ScanState)
  | _, st, [] => some (.ok st)
  | offset, st, r :: rest =>
    match scanRecordStep fid offset r st with
    | some (.ok st') => scanFile fid (offset + encodedLength r) st' rest
    | other => other

/-- The outer file loop of src/db.rs `load_index_from_data_files`, over the
ascending `file_ids` with each file's on-disk records. -/
def loadFiles (st : ScanState) : List (Nat × List LogRecord) →
    Option (Except Errors ScanState)
  | [] => some (.ok st)
  | (fid, rs) :: rest =>
    match scanFile fid 0 st rs with
    | some (.ok st') => loadFiles st' rest
    | other => other

/-- The data files actually scanned: when a merge-finished marker was found
(`has_merge`), files with an id below `unmerged_file_id` are skipped because
the hint file already covers them. -/
def processedFiles (files : List (Nat × List LogRecord)) (has_merge : Bool)
    (unmerged_file_id : Nat) : List (Nat × List LogRecord) :=
  if has_merge then files.filter fun f => ¬ f.1 < unmerged_file_id else files

/-- src/db.rs `Engine::load_index_from_data_files`: nothing to do without
data files; otherwise scan every non-skipped file in ascending id order,
starting from the index already populated from the hint file.  Returns the
final scan state (whose `current_seq` the caller stores into the sequence
counter). -/
def load_index_from_data_files (files : List (Nat × List LogRecord))
    (has_merge : Bool) (unmerged_file_id : Nat) (idx₀ : BTreeIndex) :
    Option (Except Errors ScanState) :=
  if files = [] then some (.ok ⟨idx₀, [], NON_TRANSACTION_SEQ_NUMBER, []⟩)
  else
    loadFiles ⟨idx₀, [], NON_TRANSACTION_SEQ_NUMBER, []⟩
      (processedFiles files has_merge unmerged_file_id)

/-- The sequence-counter update at the end of src/db.rs `Engine::open`
(non-persistent index path): the counter starts at `1`
(`AtomicUsize::new(1)`) and is overwritten with `current_seq + 1` only when
the scan observed a transactional sequence number. -/
def openSequenceNumber (current_seq : Nat) : Nat :=
  if NON_TRANSACTION_SEQ_NUMBER < current_seq then current_seq + 1 else 1

/-- src/data/log_record.rs `LogRecordPos::encode`: the two fields as
consecutive varints. -/
def LogRecordPos.encode (p : LogRecordPos) : List Nat :=
  encodeVarint p.file_id ++ encodeVarint p.offset

/-- src/data/data_file.rs `DataFile::write_hint_record`: a Normal record
whose key is the real key and whose value is the encoded position. -/
def hintRecord (key : List Nat) (record_pos : LogRecordPos) : LogRecord :=
  ⟨key, LogRecordPos.encode record_pos, .Normal⟩

/-- The candidate-file scan loop of src/merge.rs `Engine::merge` over one
frozen file: read each framed record, parse its real key (the source
unwraps — `none` on failure), and when the live index maps the real key to
exactly this candidate file id and offset, rewrite the record into the side
engine with sequence number zero and append a hint record; otherwise skip
it. -/
def mergeScanFile (liveIndex : BTreeIndex) (fid : Nat) :
    Nat → Engine → List LogRecord → List LogRecord →
    Option (Engine × List LogRecord)
  | _, merge_engine, hints, [] => some (merge_engine, hints)
  | offset, merge_engine, hints, r :: rest =>
    match parse_record_sequence_number_with_key r.key with
    | none => none
    | some (_, real_key) =>
      match BTreeIndex.get liveIndex real_key with
      | some idx_pos =>
        if idx_pos.file_id = fid ∧ idx_pos.offset = offset then
          let record' : LogRecord :=
            ⟨get_record_sequence_number_with_key real_key NON_TRANSACTION_SEQ_NUMBER,
             r.value, r.rec_type⟩
          let (merge_engine', record_pos) := appendLogRecord merge_engine record'
          mergeScanFile liveIndex fid (offset + encodedLength r) merge_engine'
            (hints ++ [hintRecord real_key record_pos]) rest
        else mergeScanFile liveIndex fid (offset + encodedLength r) merge_engine hints rest
      | none => mergeScanFile liveIndex fid (offset + encodedLength r) merge_engine hints rest

/-- The liveness check of the merge loop as a predicate on a (position,
record) pair of a candidate file: the live index maps the record's real key
to exactly this position. -/
def mergeLive (liveIndex : BTreeIndex) (pr : LogRecordPos × LogRecord) : Bool :=
  match parse_record_sequence_number_with_key pr.2.key with
  | none => false
  | some (_, real_key) =>
    match BTreeIndex.get liveIndex real_key with
    | some idx_pos => decide (idx_pos = pr.1)
    | none => false

/-- Rewriting of exactly the selected (live) records into the side engine,
emitting one hint record per rewritten record — the effect the merge loop
has on the records it does not skip. -/
def rewriteSelected (merge_engine : Engine) :
    List (LogRecordPos × LogRecord) → Engine × List LogRecord
  | [] => (merge_engine, [])
  | (_, r) :: rest =>
    match parse_record_sequence_number_with_key r.key with
    | none => rewriteSelected merge_engine rest
    | some (_, real_key) =>
      let record' : LogRecord :=
        ⟨get_record_sequence_number_with_key real_key NON_TRANSACTION_SEQ_NUMBER,
         r.value, r.rec_type⟩
      let (merge_engine', record_pos) := appendLogRecord merge_engine record'
      let (merge_engine'', hints) := rewriteSelected merge_engine' rest
      (merge_engine'', hintRecord real_key record_pos :: hints)

/-- The (position, record) pairs of one file's framed records, starting at
the given byte offset: positions advance by the framed sizes exactly as the
sequential scans do. -/
def entriesOf (fid : Nat) : Nat → List LogRecord → List (LogRecordPos × LogRecord)
  | _, [] => []
  | offset, r :: rest => (⟨fid, offset⟩, r) :: entriesOf fid (offset + encodedLength r) rest

/-- The full entry stream of a startup scan over several files. -/
def scannedEntries (files : List (Nat × List LogRecord)) :
    List (LogRecordPos × LogRecord) :=
  (files.map fun f => entriesOf f.1 0 f.2).flatten

/-- The sequence number stored in an entry's key, when it parses. -/
def entrySeq (pr : LogRecordPos × LogRecord) : Option Nat :=
  (parse_record_sequence_number_with_key pr.2.key).map fun x => x.1

/-- The trace element the scan would hand to `update_index` for an entry. -/
def tripleOf (pr : LogRecordPos × LogRecord) : AppliedEntry :=
  match parse_record_sequence_number_with_key pr.2.key with
  | some (_, key) => (key, pr.2.rec_type, pr.1)
  | none => ([], pr.2.rec_type, pr.1)

/-- Whether the entry stream contains a `TxnFinished` marker carrying the
given sequence number. -/
def markerIn (seq : Nat) (es : List (LogRecordPos × LogRecord)) : Bool :=
  es.any fun e => e.2.rec_type == LogRecordType.TxnFinished && entrySeq e == some seq

/-- ASCII-decimal digit bytes of a number (Rust `usize::to_string` +
`into_bytes`); fuel-indexed with never-exhausted fuel. -/
def decimalBytesGo : Nat → Nat → List Nat
  | 0, _ => []
  | fuel + 1, n => if n < 10 then [n + 48] else decimalBytesGo fuel (n / 10) ++ [n % 10 + 48]

/-- ASCII-decimal byte string of a number. -/
def decimalBytes (n : Nat) : List Nat :=
  decimalBytesGo (n + 1) n

/-- The bytes of `SEQUENCE_NUMBER_KEY` (src/db.rs, the ASCII string
sequence.number). -/
def SEQUENCE_NUMBER_KEY : List Nat :=
  [115, 101, 113, 117, 101, 110, 99, 101, 46, 110, 117, 109, 98, 101, 114]

/-- The directory state `Engine::close` touches: whether the database
directory exists, and the framed records of the sequence-number file (or
`none` when that file does not exist). -/
structure DirState where
  dirExists : Bool
  seqFile : Option (List LogRecord)
  deriving DecidableEq

/-- src/db.rs `Engine::close`: return immediately when the directory is
gone; otherwise open or create the sequence-number file and append one
Normal record holding the counter as ASCII decimal — unconditionally, for
every index backend.  (Lock release and fsync carry no state here.) -/
def Engine.close (e : Engine) (d : DirState) : DirState :=
  if d.dirExists = false then d
  else
    let record : LogRecord :=
      ⟨SEQUENCE_NUMBER_KEY, decimalBytes e.sequence_number, .Normal⟩
    { d with seqFile := some ((d.seqFile.getD []) ++ [record]) }

/-- The startup scan as a single pass over the flattened entry stream: the
same per-record loop body applied to the (position, record) pairs the file
loops produce.  Proved below to coincide with `scanFile`/`loadFiles`. -/
def scanEntries (st : ScanState) : List (LogRecordPos × LogRecord) →
    Option (Except Errors ScanState)
  | [] => some (.ok st)
  | (p, r) :: rest =>
    match scanRecordStep p.file_id p.offset r st with
    | some (.ok st') => scanEntries st' rest
    | other => other

/-- The record the merge loop writes into the side engine for a live entry:
the same value and type, the key re-prefixed with sequence number zero. -/
def rewrittenRecord (pr : LogRecordPos × LogRecord) : LogRecord :=
  match parse_record_sequence_number_with_key pr.2.key with
  | some (_, real_key) =>
    ⟨get_record_sequence_number_with_key real_key NON_TRANSACTION_SEQ_NUMBER,
     pr.2.value, pr.2.rec_type⟩
  | none => pr.2

/-- The real (stripped) key of a scanned entry, when its stored key parses. -/
def realKeyOf (pr : LogRecordPos × LogRecord) : List Nat :=
  match parse_record_sequence_number_with_key pr.2.key with
  | some (_, real_key) => real_key
  | none => []

/-! Basic lemmas about the varint codec. -/

theorem decodeVarint_encodeVarintGo (fuel : Nat) :
    ∀ n : Nat, n ≤ fuel → ∀ k : List Nat,
      decodeVarint (encodeVarintGo fuel n ++ k) = some (n, k) := by
  induction fuel with
  | zero =>
    intro n hn k
    interval_cases n
    simp [encodeVarintGo, decodeVarint]
  | succ fuel ih =>
    intro n hn k
    by_cases h : n < 128
    · simp [encodeVarintGo, h, decodeVarint]
    · have hp : 0 < n := by omega
      have hle : n / 128 ≤ fuel := by
        have := Nat.div_lt_self hp (show (1 : Nat) < 128 by omega)
        omega
      have hb : ¬ (n % 128 + 128 < 128) := by omega
      rw [show encodeVarintGo (fuel + 1) n = (n % 128 + 128) :: encodeVarintGo fuel (n / 128) by
        simp [encodeVarintGo, h]]
      rw [List.cons_append]
      rw [show decodeVarint ((n % 128 + 128) :: (encodeVarintGo fuel (n / 128) ++ k)) =
        (match decodeVarint (encodeVarintGo fuel (n / 128) ++ k) with
         | some (m, r) => some (m * 128 + (n % 128 + 128 - 128), r)
         | none => none) by simp [decodeVarint, hb]]
      rw [ih (n / 128) hle k]
      simp only []
      have hmod : n % 128 + 128 - 128 = n % 128 := by omega
      rw [hmod]
      have hdm : n / 128 * 128 + n % 128 = n := by omega
      rw [hdm]

theorem decodeVarint_encodeVarint (n : Nat) (k : List Nat) :
    decodeVarint (encodeVarint n ++ k) = some (n, k) :=
  decodeVarint_encodeVarintGo n n (Nat.le_refl n) k

/-- C10: for every key (any byte sequence) and every sequence number,
parsing the sequence-prefixed key returns exactly the sequence number and
the original key — the stored-key codec of src/batch.rs round-trips. -/
theorem parse_get_record_sequence_number_roundtrip (k : List Nat) (s : Nat) :
    parse_record_sequence_number_with_key (get_record_sequence_number_with_key k s) =
      some (s, k) := by
  unfold parse_record_sequence_number_with_key get_record_sequence_number_with_key
  exact decodeVarint_encodeVarint s k

/-- C9: `put`, `get` and `delete` all reject the empty key with `KeyIsEmpty`
before appending any record or touching the index — the returned engine
state is exactly the input state. -/
theorem empty_key_rejected (e : Engine) (v : List Nat) :
    Engine.put e [] v = (e, .error .KeyIsEmpty) ∧
    Engine.get e [] = .error .KeyIsEmpty ∧
    Engine.delete e [] = (e, .error .KeyIsEmpty) := by
  refine ⟨?_, ?_, ?_⟩ <;> simp [Engine.put, Engine.get, Engine.delete]

/-- C6 counterexample: a data file opened over one existing byte has on-disk
size one but write offset zero — `DataFile::new` does not start the offset
at the current file size. -/
theorem dataFile_new_offset_counterexample :
    (DataFileBytes.new 0 [7]).write_offset ≠ (DataFileBytes.new 0 [7]).size := by
  decide

/-- C6 amended: `DataFile::new` always starts the write offset at zero (so it
equals the on-disk size only for files opened empty), and every successful
append bumps the offset by exactly the number of bytes written, preserving
offset = size whenever it already held. -/
theorem dataFile_write_offset_amended (fid : Nat) (onDisk : List Nat)
    (f : DataFileBytes) (buf : List Nat) (h : f.write_offset = f.size) :
    (DataFileBytes.new fid onDisk).write_offset = 0 ∧
    (DataFileBytes.write f buf).1.write_offset = f.write_offset + (DataFileBytes.write f buf).2 ∧
    (DataFileBytes.write f buf).1.write_offset = (DataFileBytes.write f buf).1.size := by
  refine ⟨rfl, rfl, ?_⟩
  simp [DataFileBytes.write, DataFileBytes.size, h]

theorem dataFile_write_offset_amended_witness :
    ((DataFileBytes.new 3 []).write_offset = 0 ∧
     (DataFileBytes.write ⟨3, [1, 2], 2⟩ [9]).1.write_offset =
       (2 : Nat) + (DataFileBytes.write ⟨3, [1, 2], 2⟩ [9]).2 ∧
     (DataFileBytes.write ⟨3, [1, 2], 2⟩ [9]).1.write_offset =
       (DataFileBytes.write ⟨3, [1, 2], 2⟩ [9]).1.size) :=
  dataFile_write_offset_amended 3 [] ⟨3, [1, 2], 2⟩ [9] (by decide)

/-- C8 counterexample: an engine using the (non-persistent) BTree index
backend, closed cleanly over a directory with no sequence-number file, does
leave a sequence-number file behind — `close` writes it unconditionally. -/
theorem close_seq_file_counterexample :
    (⟨4096, .BTree, DataFile.new 0 [], [], [], 1⟩ : Engine).index_type ≠ IndexType.BPlusTree ∧
    (Engine.close ⟨4096, .BTree, DataFile.new 0 [], [], [], 1⟩ ⟨true, none⟩).seqFile ≠ none := by
  decide

/-- C8 amended: a clean close writes the sequence-number file for every
index backend — it appends one Normal record holding the counter in ASCII
decimal; only the persistent B+tree open path ever consumes that file. -/
theorem close_writes_seq_file (e : Engine) (d : DirState) (h : d.dirExists = true) :
    (Engine.close e d).seqFile =
      some ((d.seqFile.getD []) ++
        [⟨SEQUENCE_NUMBER_KEY, decimalBytes e.sequence_number, .Normal⟩]) := by
  simp [Engine.close, h]

theorem close_writes_seq_file_witness :
    (Engine.close ⟨4096, .BTree, DataFile.new 0 [], [], [], 5⟩ ⟨true, none⟩).seqFile =
      some [⟨SEQUENCE_NUMBER_KEY, decimalBytes 5, .Normal⟩] :=
  close_writes_seq_file ⟨4096, .BTree, DataFile.new 0 [], [], [], 5⟩ ⟨true, none⟩ rfl

/-! Lemmas about framing sizes and aligned reads. -/

theorem encodedLength_pos (r : LogRecord) : 0 < encodedLength r := by
  unfold encodedLength
  omega

theorem fileSize_nil : fileSize [] = 0 := rfl

theorem fileSize_cons (r : LogRecord) (rs : List LogRecord) :
    fileSize (r :: rs) = encodedLength r + fileSize rs := by
  simp [fileSize]

theorem fileSize_append_one (rs : List LogRecord) (r : LogRecord) :
    fileSize (rs ++ [r]) = fileSize rs + encodedLength r := by
  simp [fileSize]

theorem readLogRecord_at_end (rs : List LogRecord) (r : LogRecord) :
    readLogRecord (rs ++ [r]) (fileSize rs) = .ok ⟨r, encodedLength r⟩ := by
  induction rs with
  | nil => simp [readLogRecord, fileSize_nil]
  | cons r' rest ih =>
    have hpos := encodedLength_pos r'
    rw [fileSize_cons]
    rw [List.cons_append]
    unfold readLogRecord
    rw [if_neg (by omega)]
    rw [if_neg (by omega)]
    have : encodedLength r' + fileSize rest - encodedLength r' = fileSize rest := by omega
    rw [this]
    exact ih

/-! Lemmas about the BTree index model. -/

theorem BTreeIndex.get_put_self (idx : BTreeIndex) (k : List Nat) (p : LogRecordPos) :
    BTreeIndex.get (BTreeIndex.put idx k p) k = some p := by
  induction idx with
  | nil => simp [BTreeIndex.put, BTreeIndex.get]
  | cons kv rest ih =>
    by_cases h : kv.1 = k
    · simp [BTreeIndex.put, BTreeIndex.get, h]
    · simp only [BTreeIndex.put, BTreeIndex.get]
      rw [if_neg h, ]
      simp only [BTreeIndex.get]
      rw [if_neg h]
      exact ih

/-! Lemmas about `append_log_record`. -/

theorem appendLogRecord_frame (e : Engine) (r : LogRecord) :
    (appendLogRecord e r).1.sequence_number = e.sequence_number ∧
    (appendLogRecord e r).1.index = e.index ∧
    (appendLogRecord e r).1.data_file_size = e.data_file_size ∧
    (appendLogRecord e r).1.index_type = e.index_type ∧
    allRecords (appendLogRecord e r).1 = allRecords e ++ [r] := by
  unfold appendLogRecord
  by_cases h : e.data_file_size < e.active_file.write_offset + encodedLength r
  · simp [h, allRecords, DataFile.new, DataFile.writeRecord]
  · simp [h, allRecords, DataFile.new, DataFile.writeRecord]

theorem appendLogRecord_read (e : Engine) (r : LogRecord)
    (hoff : e.active_file.write_offset = fileSize e.active_file.records) :
    (appendLogRecord e r).1.active_file.file_id = (appendLogRecord e r).2.file_id ∧
    readLogRecord (appendLogRecord e r).1.active_file.records (appendLogRecord e r).2.offset =
      .ok ⟨r, encodedLength r⟩ ∧
    (appendLogRecord e r).1.active_file.write_offset =
      fileSize (appendLogRecord e r).1.active_file.records := by
  unfold appendLogRecord
  by_cases h : e.data_file_size < e.active_file.write_offset + encodedLength r
  · simp only [h, if_true]
    refine ⟨rfl, ?_, ?_⟩
    · simpa [DataFile.new, DataFile.writeRecord] using
        readLogRecord_at_end [] r
    · simp [DataFile.new, DataFile.writeRecord, fileSize_cons, fileSize_nil]
  · simp only [h, if_false]
    refine ⟨rfl, ?_, ?_⟩
    · simpa [DataFile.writeRecord, hoff] using
        readLogRecord_at_end e.active_file.records r
    · simp [DataFile.writeRecord, hoff, fileSize_append_one]

/-- C1: for every non-empty key and every value (the empty value included),
once `put` succeeds — which it does on the engine model whenever the active
handle's write offset agrees with its on-disk size, the invariant `open`
establishes — `get` of that key returns exactly the value just written. -/
theorem put_get_roundtrip (e : Engine) (k v : List Nat) (hk : k ≠ [])
    (hoff : e.active_file.write_offset = fileSize e.active_file.records) :
    (Engine.put e k v).2 = .ok () ∧ Engine.get (Engine.put e k v).1 k = .ok v := by
  have hread := appendLogRecord_read e
    ⟨get_record_sequence_number_with_key k NON_TRANSACTION_SEQ_NUMBER, v, .Normal⟩ hoff
  rcases happ : appendLogRecord e
      ⟨get_record_sequence_number_with_key k NON_TRANSACTION_SEQ_NUMBER, v, .Normal⟩ with
    ⟨e', pos⟩
  rw [happ] at hread
  simp only at hread
  obtain ⟨hfid, hrd, _⟩ := hread
  have hput : Engine.put e k v =
      ({ e' with index := BTreeIndex.put e'.index k pos }, .ok ()) := by
    unfold Engine.put
    rw [if_neg hk]
    simp only [happ]
  refine ⟨by rw [hput], ?_⟩
  rw [hput]
  unfold Engine.get
  rw [if_neg hk]
  simp only [BTreeIndex.get_put_self]
  simp [getValueByPosition, hfid, hrd]

theorem put_get_roundtrip_witness :
    ((Engine.put ⟨4096, .BTree, DataFile.new 0 [], [], [], 1⟩ [1] [2]).2 = .ok () ∧
     Engine.get (Engine.put ⟨4096, .BTree, DataFile.new 0 [], [], [], 1⟩ [1] [2]).1 [1] =
       .ok [2]) :=
  put_get_roundtrip ⟨4096, .BTree, DataFile.new 0 [], [], [], 1⟩ [1] [2] (by decide) rfl

/-- C4: `commit` on an empty staged set returns at once, appending nothing
and leaving the engine — counter included — exactly unchanged; when the
staged count exceeds `max_batch_size` it fails with `BatchSizeExceeded`,
again with the engine unchanged, both checks running before the sequence
counter is touched. -/
theorem commit_fail_fast (pending : List (List Nat × LogRecord))
    (options : WriteBatchOptions) (e : Engine)
    (hover : options.max_batch_size < pending.length) :
    WriteBatch.commit [] options e = some (e, .ok ()) ∧
    WriteBatch.commit pending options e = some (e, .error .BatchSizeExceeded) := by
  constructor
  · simp [WriteBatch.commit]
  · have hne : pending ≠ [] := by
      intro h
      rw [h] at hover
      simp at hover
    unfold WriteBatch.commit
    rw [if_neg hne, if_pos hover]

theorem commit_fail_fast_witness :
    ((0 : Nat) < ([(([1] : List Nat), (⟨[1], [], .Normal⟩ : LogRecord))]).length ∧
     WriteBatch.commit [] ⟨0, false⟩ ⟨4096, .BTree, DataFile.new 0 [], [], [], 1⟩ =
       some (⟨4096, .BTree, DataFile.new 0 [], [], [], 1⟩, .ok ()) ∧
     WriteBatch.commit [([1], ⟨[1], [], .Normal⟩)] ⟨0, false⟩
         ⟨4096, .BTree, DataFile.new 0 [], [], [], 1⟩ =
       some (⟨4096, .BTree, DataFile.new 0 [], [], [], 1⟩, .error .BatchSizeExceeded)) :=
  ⟨by decide,
   commit_fail_fast [([1], ⟨[1], [], .Normal⟩)] ⟨0, false⟩
     ⟨4096, .BTree, DataFile.new 0 [], [], [], 1⟩ (by decide)⟩

/-! Lemmas about the two commit loops. -/

theorem commitAppendLoop_spec (seq : Nat) (l : List (List Nat × LogRecord)) :
    ∀ (e : Engine) (ps : List (List Nat × LogRecordPos)),
      (commitAppendLoop seq l e ps).1.sequence_number = e.sequence_number ∧
      allRecords (commitAppendLoop seq l e ps).1 = allRecords e ++
        l.map (fun kv =>
          (⟨get_record_sequence_number_with_key kv.1 seq, kv.2.value, kv.2.rec_type⟩ :
            LogRecord)) ∧
      (commitAppendLoop seq l e ps).2.map Prod.fst = ps.map Prod.fst ++ l.map Prod.fst := by
  induction l with
  | nil =>
    intro e ps
    simp [commitAppendLoop]
  | cons kv rest ih =>
    intro e ps
    rcases kv with ⟨key, record⟩
    have frame := appendLogRecord_frame e
      ⟨get_record_sequence_number_with_key key seq, record.value, record.rec_type⟩
    rcases happ : appendLogRecord e
        ⟨get_record_sequence_number_with_key key seq, record.value, record.rec_type⟩ with
      ⟨e', pos⟩
    rw [happ] at frame
    obtain ⟨h1, _, _, _, h5⟩ := frame
    have hstep : commitAppendLoop seq ((key, record) :: rest) e ps =
        commitAppendLoop seq rest e' (ps ++ [(key, pos)]) := by
      simp only [commitAppendLoop, happ]
    rw [hstep]
    obtain ⟨i1, i2, i3⟩ := ih e' (ps ++ [(key, pos)])
    refine ⟨by rw [i1, h1], ?_, ?_⟩
    · rw [i2, h5]
      simp [List.append_assoc]
    · rw [i3]
      simp

theorem positionsGet_isSome_of_mem (ps : List (List Nat × LogRecordPos)) (k : List Nat)
    (h : k ∈ ps.map Prod.fst) : (positionsGet ps k).isSome = true := by
  induction ps with
  | nil => simp at h
  | cons kv rest ih =>
    rw [List.map_cons, List.mem_cons] at h
    by_cases hk : kv.1 = k
    · simp [positionsGet, hk]
    · rcases h with h | h
      · exact absurd h.symm hk
      · simp only [positionsGet]
        rcases kv with ⟨k', p'⟩
        rw [if_neg hk]
        exact ih h

theorem commitIndexLoop_spec (positions : List (List Nat × LogRecordPos))
    (l : List (List Nat × LogRecord)) :
    ∀ e : Engine,
      (∀ kv ∈ l, kv.2.rec_type = LogRecordType.Normal → kv.2.key ∈ positions.map Prod.fst) →
      ∃ e', commitIndexLoop positions l e = some e' ∧
        e'.sequence_number = e.sequence_number ∧ allRecords e' = allRecords e := by
  induction l with
  | nil =>
    intro e _
    exact ⟨e, rfl, rfl, rfl⟩
  | cons kv rest ih =>
    intro e hmem
    rcases kv with ⟨key, rkey, rvalue, rtype⟩
    have hmem' : ∀ kv ∈ rest, kv.2.rec_type = LogRecordType.Normal →
        kv.2.key ∈ positions.map Prod.fst :=
      fun kv hkv => hmem kv (List.mem_cons_of_mem _ hkv)
    cases rtype with
    | Normal =>
      have hk : rkey ∈ positions.map Prod.fst := by
        have := hmem (key, ⟨rkey, rvalue, .Normal⟩) (List.mem_cons_self _ _) rfl
        simpa using this
      have hsome := positionsGet_isSome_of_mem positions rkey hk
      rcases hpos : positionsGet positions rkey with _ | pos
      · rw [hpos] at hsome
        simp at hsome
      · have hstep : commitIndexLoop positions ((key, ⟨rkey, rvalue, .Normal⟩) :: rest) e =
            commitIndexLoop positions rest
              { e with index := BTreeIndex.put e.index rkey pos } := by
          simp only [commitIndexLoop, hpos]
        rw [hstep]
        obtain ⟨e', h1, h2, h3⟩ := ih _ hmem'
        exact ⟨e', h1, h2, h3⟩
    | Deleted =>
      have hstep : commitIndexLoop positions ((key, ⟨rkey, rvalue, .Deleted⟩) :: rest) e =
          commitIndexLoop positions rest
            { e with index := BTreeIndex.delete e.index rkey } := by
        simp only [commitIndexLoop]
      rw [hstep]
      obtain ⟨e', h1, h2, h3⟩ := ih _ hmem'
      exact ⟨e', h1, h2, h3⟩
    | TxnFinished =>
      have hstep : commitIndexLoop positions ((key, ⟨rkey, rvalue, .TxnFinished⟩) :: rest) e =
          commitIndexLoop positions rest e := by
        simp only [commitIndexLoop]
      rw [hstep]
      obtain ⟨e', h1, h2, h3⟩ := ih _ hmem'
      exact ⟨e', h1, h2, h3⟩

/-- C3: committing a non-empty staged set within the size bound allocates
exactly one sequence number — the counter's pre-increment value, the counter
advancing by exactly one — appends every staged record with its key re-keyed
as the varint-encoded sequence number followed by the original key, and then
appends exactly one `TxnFinished` record whose key is the encoded sequence
number followed by the txn-fin bytes and whose value is empty. -/
theorem commit_appends_one_group (pending : List (List Nat × LogRecord))
    (options : WriteBatchOptions) (e : Engine)
    (hne : pending ≠ []) (hsize : pending.length ≤ options.max_batch_size)
    (hkeys : ∀ kv ∈ pending, kv.2.key = kv.1) :
    ∃ e', WriteBatch.commit pending options e = some (e', .ok ()) ∧
      e'.sequence_number = e.sequence_number + 1 ∧
      allRecords e' = allRecords e ++
        pending.map (fun kv =>
          (⟨get_record_sequence_number_with_key kv.1 e.sequence_number, kv.2.value,
            kv.2.rec_type⟩ : LogRecord)) ++
        [⟨get_record_sequence_number_with_key TX_FIN_KEY e.sequence_number, [],
          .TxnFinished⟩] := by
  have hloop := commitAppendLoop_spec e.sequence_number pending
    { e with sequence_number := e.sequence_number + 1 } []
  rcases hl : commitAppendLoop e.sequence_number pending
      { e with sequence_number := e.sequence_number + 1 } [] with ⟨e₂, positions⟩
  rw [hl] at hloop
  simp only at hloop
  obtain ⟨hseq2, hall2, hkeys2⟩ := hloop
  have hframe := appendLogRecord_frame e₂
    ⟨get_record_sequence_number_with_key TX_FIN_KEY e.sequence_number, [], .TxnFinished⟩
  rcases ha : appendLogRecord e₂
      ⟨get_record_sequence_number_with_key TX_FIN_KEY e.sequence_number, [],
        .TxnFinished⟩ with ⟨e₃, pfin⟩
  rw [ha] at hframe
  simp only at hframe
  obtain ⟨hseq3, _, _, _, hall3⟩ := hframe
  have hmem : ∀ kv ∈ pending, kv.2.rec_type = LogRecordType.Normal →
      kv.2.key ∈ positions.map Prod.fst := by
    intro kv hkv _
    rw [hkeys2, hkeys kv hkv]
    simpa using List.mem_map_of_mem Prod.fst hkv
  obtain ⟨e₄, hil, hseq4, hall4⟩ := commitIndexLoop_spec positions pending e₃ hmem
  refine ⟨e₄, ?_, ?_, ?_⟩
  · unfold WriteBatch.commit
    rw [if_neg hne, if_neg (by omega : ¬ options.max_batch_size < pending.length)]
    simp only [hl, ha, hil]
  · rw [hseq4, hseq3, hseq2]
  · rw [hall4, hall3, hall2]
    have : allRecords { e with sequence_number := e.sequence_number + 1 } = allRecords e := rfl
    rw [this]

theorem commit_appends_one_group_witness :
    ∃ e', WriteBatch.commit [([1], ⟨[1], [9], .Normal⟩)] ⟨8192, false⟩
        ⟨4096, .BTree, DataFile.new 0 [], [], [], 1⟩ = some (e', .ok ()) ∧
      e'.sequence_number =
        (⟨4096, .BTree, DataFile.new 0 [], [], [], 1⟩ : Engine).sequence_number + 1 ∧
      allRecords e' = allRecords ⟨4096, .BTree, DataFile.new 0 [], [], [], 1⟩ ++
        ([(([1] : List Nat), (⟨[1], [9], .Normal⟩ : LogRecord))].map fun kv =>
          (⟨get_record_sequence_number_with_key kv.1
              (⟨4096, .BTree, DataFile.new 0 [], [], [], 1⟩ : Engine).sequence_number,
            kv.2.value, kv.2.rec_type⟩ : LogRecord)) ++
        [⟨get_record_sequence_number_with_key TX_FIN_KEY
            (⟨4096, .BTree, DataFile.new 0 [], [], [], 1⟩ : Engine).sequence_number, [],
          .TxnFinished⟩] :=
  commit_appends_one_group [([1], ⟨[1], [9], .Normal⟩)] ⟨8192, false⟩
    ⟨4096, .BTree, DataFile.new 0 [], [], [], 1⟩ (by decide) (by decide)
    (by
      intro kv hkv
      simp only [List.mem_singleton] at hkv
      subst hkv
      rfl)

/-! The file-by-file scan coincides with the single pass over the flattened
entry stream. -/

theorem scanFile_eq_scanEntries (rs : List LogRecord) :
    ∀ (fid offset : Nat) (st : ScanState),
      scanFile fid offset st rs = scanEntries st (entriesOf fid offset rs) := by
  induction rs with
  | nil =>
    intro fid offset st
    simp [scanFile, entriesOf, scanEntries]
  | cons r rest ih =>
    intro fid offset st
    rw [show entriesOf fid offset (r :: rest) =
      (⟨fid, offset⟩, r) :: entriesOf fid (offset + encodedLength r) rest from rfl]
    rcases h : scanRecordStep fid offset r st with _ | res
    · simp [scanFile, scanEntries, h]
    · rcases res with er | st'
      · simp [scanFile, scanEntries, h]
      · simp only [scanFile, scanEntries, h]
        exact ih fid (offset + encodedLength r) st'

theorem scanEntries_append (es₁ es₂ : List (LogRecordPos × LogRecord)) :
    ∀ st : ScanState,
      scanEntries st (es₁ ++ es₂) =
        match scanEntries st es₁ with
        | some (.ok st') => scanEntries st' es₂
        | other => other := by
  induction es₁ with
  | nil =>
    intro st
    simp [scanEntries]
  | cons e rest ih =>
    intro st
    rcases e with ⟨p, r⟩
    rcases h : scanRecordStep p.file_id p.offset r st with _ | res
    · simp [scanEntries, h]
    · rcases res with er | st'
      · simp [scanEntries, h]
      · simp only [List.cons_append, scanEntries, h]
        exact ih st'

theorem loadFiles_eq_scanEntries (files : List (Nat × List LogRecord)) :
    ∀ st : ScanState, loadFiles st files = scanEntries st (scannedEntries files) := by
  induction files with
  | nil =>
    intro st
    simp [loadFiles, scannedEntries, scanEntries]
  | cons f rest ih =>
    intro st
    rcases f with ⟨fid, rs⟩
    have hflat : scannedEntries ((fid, rs) :: rest) =
        entriesOf fid 0 rs ++ scannedEntries rest := by
      simp [scannedEntries]
    rw [hflat, scanEntries_append]
    rcases h : scanFile fid 0 st rs with _ | res
    · rw [scanFile_eq_scanEntries] at h
      simp [loadFiles, scanFile_eq_scanEntries, h]
    · rcases res with er | st'
      · rw [scanFile_eq_scanEntries] at h
        simp [loadFiles, scanFile_eq_scanEntries, h]
      · have h' := h
        rw [scanFile_eq_scanEntries] at h'
        simp only [loadFiles, h, h']
        exact ih st'

/-! The running maximum sequence number computed by the scan. -/

theorem scanRecordStep_ok_seq (fid offset : Nat) (r : LogRecord) (st st₁ : ScanState)
    (h : scanRecordStep fid offset r st = some (.ok st₁)) :
    ∃ seq key, parse_record_sequence_number_with_key r.key = some (seq, key) ∧
      st₁.current_seq = max st.current_seq seq := by
  unfold scanRecordStep at h
  rcases hp : parse_record_sequence_number_with_key r.key with _ | sk
  · rw [hp] at h
    simp at h
  · rcases sk with ⟨seq, key⟩
    rw [hp] at h
    simp only at h
    refine ⟨seq, key, rfl, ?_⟩
    by_cases h0 : seq = NON_TRANSACTION_SEQ_NUMBER
    · rw [if_pos h0] at h
      rcases hui : update_index st.index key r.rec_type ⟨fid, offset⟩ with er | idx
      · rw [hui] at h
        simp at h
      · rw [hui] at h
        simp only [Option.some.injEq, Except.ok.injEq] at h
        rw [← h]
    · rw [if_neg h0] at h
      by_cases hfin : r.rec_type = LogRecordType.TxnFinished
      · rw [if_pos hfin] at h
        rcases hg : groupsGet st.groups seq with _ | trs
        · rw [hg] at h
          simp at h
        · rw [hg] at h
          simp only at h
          rcases hag : applyGroup st.index trs with er | idx
          · rw [hag] at h
            simp at h
          · rw [hag] at h
            simp only [Option.some.injEq, Except.ok.injEq] at h
            rw [← h]
      · rw [if_neg hfin] at h
        simp only [Option.some.injEq, Except.ok.injEq] at h
        rw [← h]

theorem scanEntries_current_seq (es : List (LogRecordPos × LogRecord)) :
    ∀ (st stF : ScanState), scanEntries st es = some (.ok stF) →
      stF.current_seq =
        es.foldl (fun a e => max a ((entrySeq e).getD 0)) st.current_seq := by
  induction es with
  | nil =>
    intro st stF h
    simp only [scanEntries, Option.some.injEq, Except.ok.injEq] at h
    rw [← h]
    rfl
  | cons e rest ih =>
    intro st stF h
    rcases e with ⟨p, r⟩
    rcases hstep : scanRecordStep p.file_id p.offset r st with _ | res
    · rw [show scanEntries st ((p, r) :: rest) =
        match scanRecordStep p.file_id p.offset r st with
        | some (.ok st') => scanEntries st' rest
        | other => other from rfl, hstep] at h
      simp at h
    · rcases res with er | st'
      · rw [show scanEntries st ((p, r) :: rest) =
          match scanRecordStep p.file_id p.offset r st with
          | some (.ok st') => scanEntries st' rest
          | other => other from rfl, hstep] at h
        simp at h
      · have hrest : scanEntries st' rest = some (.ok stF) := by
          rw [show scanEntries st ((p, r) :: rest) =
            match scanRecordStep p.file_id p.offset r st with
            | some (.ok st') => scanEntries st' rest
            | other => other from rfl, hstep] at h
          exact h
        obtain ⟨seq, key, hp, hseq⟩ := scanRecordStep_ok_seq _ _ _ _ _ hstep
        have hent : (entrySeq (p, r)).getD 0 = seq := by
          simp [entrySeq, hp]
        rw [List.foldl_cons, hent, ih st' stF hrest, hseq]

/-- C7: after `open` on a non-persistent index backend, the sequence counter
equals `max(current_seq + 1, 1)` where `current_seq` is the maximum sequence
number observed while scanning the data files (the counter starts at 1 and
is overwritten with `current_seq + 1` only when the scan saw a transactional
record, which is the same value; an empty or purely auto-commit log leaves
`current_seq = 0` and hence counter 1). -/
theorem open_sequence_counter (files : List (Nat × List LogRecord)) (hm : Bool)
    (uid : Nat) (idx₀ : BTreeIndex) (stF : ScanState)
    (h : load_index_from_data_files files hm uid idx₀ = some (.ok stF)) :
    openSequenceNumber stF.current_seq = max (stF.current_seq + 1) 1 ∧
    stF.current_seq = (scannedEntries (processedFiles files hm uid)).foldl
        (fun a e => max a ((entrySeq e).getD 0)) 0 := by
  constructor
  · have hmax : max (stF.current_seq + 1) 1 = stF.current_seq + 1 :=
      Nat.max_eq_left (by omega)
    rw [hmax]
    unfold openSequenceNumber NON_TRANSACTION_SEQ_NUMBER
    by_cases h0 : 0 < stF.current_seq
    · rw [if_pos h0]
    · rw [if_neg h0]
      omega
  · unfold load_index_from_data_files at h
    by_cases hemp : files = []
    · rw [if_pos hemp] at h
      simp only [Option.some.injEq, Except.ok.injEq] at h
      subst hemp
      rw [← h]
      cases hm <;> simp [processedFiles, scannedEntries, NON_TRANSACTION_SEQ_NUMBER]
    · rw [if_neg hemp] at h
      rw [loadFiles_eq_scanEntries] at h
      have := scanEntries_current_seq _ _ _ h
      simpa [NON_TRANSACTION_SEQ_NUMBER] using this

theorem open_sequence_counter_witness :
    openSequenceNumber (⟨[], [], 0, []⟩ : ScanState).current_seq =
      max ((⟨[], [], 0, []⟩ : ScanState).current_seq + 1) 1 ∧
    (⟨[], [], 0, []⟩ : ScanState).current_seq =
      (scannedEntries (processedFiles [] false 0)).foldl
        (fun a e => max a ((entrySeq e).getD 0)) 0 :=
  open_sequence_counter [] false 0 [] ⟨[], [], 0, []⟩ rfl

/-! Lemmas about the merge rewrite loop. -/

theorem rewriteSelected_spec (sel : List (LogRecordPos × LogRecord)) :
    ∀ me : Engine,
      (∀ pr ∈ sel, (parse_record_sequence_number_with_key pr.2.key).isSome = true) →
      allRecords (rewriteSelected me sel).1 = allRecords me ++ sel.map rewrittenRecord ∧
      (rewriteSelected me sel).2.map (fun r => r.key) = sel.map realKeyOf := by
  induction sel with
  | nil =>
    intro me _
    simp [rewriteSelected]
  | cons pr rest ih =>
    intro me hps
    rcases pr with ⟨p, r⟩
    have hhead := hps (p, r) (List.mem_cons_self _ _)
    rcases hp : parse_record_sequence_number_with_key r.key with _ | sk
    · rw [show (p, r).2.key = r.key from rfl, hp] at hhead
      simp at hhead
    · rcases sk with ⟨s, rk⟩
      have hframe := appendLogRecord_frame me
        ⟨get_record_sequence_number_with_key rk NON_TRANSACTION_SEQ_NUMBER, r.value, r.rec_type⟩
      rcases happ : appendLogRecord me
          ⟨get_record_sequence_number_with_key rk NON_TRANSACTION_SEQ_NUMBER,
            r.value, r.rec_type⟩ with ⟨me', pos⟩
      rw [happ] at hframe
      simp only at hframe
      obtain ⟨_, _, _, _, hall⟩ := hframe
      obtain ⟨ih1, ih2⟩ := ih me' (fun q hq => hps q (List.mem_cons_of_mem _ hq))
      rcases hrw : rewriteSelected me' rest with ⟨me'', hs⟩
      rw [hrw] at ih1 ih2
      simp only at ih1 ih2
      have hstep : rewriteSelected me ((p, r) :: rest) = (me'', hintRecord rk pos :: hs) := by
        simp only [rewriteSelected, hp, happ, hrw]
      rw [hstep]
      have hrr : rewrittenRecord (p, r) =
          ⟨get_record_sequence_number_with_key rk NON_TRANSACTION_SEQ_NUMBER,
            r.value, r.rec_type⟩ := by
        simp [rewrittenRecord, hp]
      have hrk : realKeyOf (p, r) = rk := by
        simp [realKeyOf, hp]
      constructor
      · simp only []
        rw [ih1, hall, List.map_cons, hrr]
        simp [List.append_assoc]
      · simp only [List.map_cons]
        rw [ih2, hrk]
        simp [hintRecord]

theorem mergeScanFile_spec (liveIndex : BTreeIndex) (fid : Nat) (rs : List LogRecord) :
    ∀ (offset : Nat) (me : Engine) (hints : List LogRecord) (out : Engine × List LogRecord),
      mergeScanFile liveIndex fid offset me hints rs = some out →
      out =
        ((rewriteSelected me ((entriesOf fid offset rs).filter (mergeLive liveIndex))).1,
         hints ++
           (rewriteSelected me ((entriesOf fid offset rs).filter (mergeLive liveIndex))).2) := by
  induction rs with
  | nil =>
    intro offset me hints out h
    simp only [mergeScanFile, Option.some.injEq] at h
    rw [← h]
    simp [entriesOf, rewriteSelected]
  | cons r rest ih =>
    intro offset me hints out h
    have hent : entriesOf fid offset (r :: rest) =
        (⟨fid, offset⟩, r) :: entriesOf fid (offset + encodedLength r) rest := rfl
    rcases hp : parse_record_sequence_number_with_key r.key with _ | sk
    · have hstep : mergeScanFile liveIndex fid offset me hints (r :: rest) = none := by
        simp only [mergeScanFile, hp]
      rw [hstep] at h
      simp at h
    · rcases sk with ⟨s, rk⟩
      have hlive : mergeLive liveIndex (⟨fid, offset⟩, r) =
          (match BTreeIndex.get liveIndex rk with
           | some idx_pos => decide (idx_pos = ⟨fid, offset⟩)
           | none => false) := by
        simp only [mergeLive, hp]
      rcases hg : BTreeIndex.get liveIndex rk with _ | idx_pos
      · have hstep : mergeScanFile liveIndex fid offset me hints (r :: rest) =
            mergeScanFile liveIndex fid (offset + encodedLength r) me hints rest := by
          simp only [mergeScanFile, hp, hg]
        rw [hstep] at h
        have hfalse : mergeLive liveIndex (⟨fid, offset⟩, r) = false := by
          rw [hlive, hg]
        rw [ih (offset + encodedLength r) me hints out h, hent]
        simp [List.filter_cons, hfalse]
      · by_cases hcond : idx_pos.file_id = fid ∧ idx_pos.offset = offset
        · have hposeq : idx_pos = (⟨fid, offset⟩ : LogRecordPos) := by
            rcases idx_pos with ⟨a, b⟩
            rcases hcond with ⟨h1, h2⟩
            simp only at h1 h2
            rw [h1, h2]
          rcases happ : appendLogRecord me
              ⟨get_record_sequence_number_with_key rk NON_TRANSACTION_SEQ_NUMBER,
                r.value, r.rec_type⟩ with ⟨me', pos⟩
          have hstep : mergeScanFile liveIndex fid offset me hints (r :: rest) =
              mergeScanFile liveIndex fid (offset + encodedLength r) me'
                (hints ++ [hintRecord rk pos]) rest := by
            simp only [mergeScanFile, hp, hg, if_pos hcond, happ]
          rw [hstep] at h
          have htrue : mergeLive liveIndex (⟨fid, offset⟩, r) = true := by
            rw [hlive, hg]
            simp [hposeq]
          rw [ih (offset + encodedLength r) me' (hints ++ [hintRecord rk pos]) out h, hent]
          have hsel : rewriteSelected me
              ((⟨fid, offset⟩, r) ::
                (entriesOf fid (offset + encodedLength r) rest).filter (mergeLive liveIndex)) =
              ((rewriteSelected me'
                  ((entriesOf fid (offset + encodedLength r) rest).filter
                    (mergeLive liveIndex))).1,
                hintRecord rk pos ::
                  (rewriteSelected me'
                    ((entriesOf fid (offset + encodedLength r) rest).filter
                      (mergeLive liveIndex))).2) := by
            rcases hrw : rewriteSelected me'
                ((entriesOf fid (offset + encodedLength r) rest).filter
                  (mergeLive liveIndex)) with ⟨a, b⟩
            simp only [rewriteSelected, hp, happ, hrw]
          simp only [List.filter_cons, htrue, if_true, hsel]
          simp [List.append_assoc]
        · have hstep : mergeScanFile liveIndex fid offset me hints (r :: rest) =
              mergeScanFile liveIndex fid (offset + encodedLength r) me hints rest := by
            simp only [mergeScanFile, hp, hg, if_neg hcond]
          rw [hstep] at h
          have hfalse : mergeLive liveIndex (⟨fid, offset⟩, r) = false := by
            rw [hlive, hg]
            simp only [decide_eq_false_iff_not]
            intro hq
            apply hcond
            rw [hq]
            exact ⟨rfl, rfl⟩
          rw [ih (offset + encodedLength r) me hints out h, hent]
          simp [List.filter_cons, hfalse]

/-- C5: the merge loop over a candidate file rewrites a record into the side
engine — with its sequence number replaced by zero — and emits one hint
record for it, if and only if the live index maps the record's real key to
exactly the pair (candidate file id, record offset): the loop's outputs are
exactly those of rewriting the `mergeLive`-filtered entries, the side engine
gains exactly the re-keyed copies of the selected records, and the hint file
gains exactly one record per selected entry keyed by its real key; all other
records are skipped. -/
theorem merge_rewrites_exactly_live (liveIndex : BTreeIndex) (fid : Nat)
    (rs : List LogRecord) (me : Engine) (hints : List LogRecord)
    (out : Engine × List LogRecord)
    (h : mergeScanFile liveIndex fid 0 me hints rs = some out) :
    out =
      ((rewriteSelected me ((entriesOf fid 0 rs).filter (mergeLive liveIndex))).1,
       hints ++ (rewriteSelected me ((entriesOf fid 0 rs).filter (mergeLive liveIndex))).2) ∧
    allRecords out.1 = allRecords me ++
      ((entriesOf fid 0 rs).filter (mergeLive liveIndex)).map rewrittenRecord ∧
    out.2.map (fun r => r.key) = hints.map (fun r => r.key) ++
      ((entriesOf fid 0 rs).filter (mergeLive liveIndex)).map realKeyOf := by
  have h1 := mergeScanFile_spec liveIndex fid rs 0 me hints out h
  have hps : ∀ pr ∈ (entriesOf fid 0 rs).filter (mergeLive liveIndex),
      (parse_record_sequence_number_with_key pr.2.key).isSome = true := by
    intro pr hpr
    have hl := List.of_mem_filter hpr
    unfold mergeLive at hl
    rcases hq : parse_record_sequence_number_with_key pr.2.key with _ | sk
    · rw [hq] at hl
      simp at hl
    · simp
  obtain ⟨r1, r2⟩ := rewriteSelected_spec _ me hps
  refine ⟨h1, ?_, ?_⟩
  · rw [h1]
    exact r1
  · rw [h1]
    simp only [List.map_append]
    rw [r2]

theorem merge_rewrites_exactly_live_witness :
    ((rewriteSelected ⟨4096, .BTree, DataFile.new 0 [], [], [], 1⟩
        ((entriesOf 0 0 [⟨[0, 5], [7], .Normal⟩]).filter
          (mergeLive [([5], ⟨0, 0⟩)]))).1,
      ([] : List LogRecord) ++
        (rewriteSelected ⟨4096, .BTree, DataFile.new 0 [], [], [], 1⟩
          ((entriesOf 0 0 [⟨[0, 5], [7], .Normal⟩]).filter
            (mergeLive [([5], ⟨0, 0⟩)]))).2) =
      ((rewriteSelected ⟨4096, .BTree, DataFile.new 0 [], [], [], 1⟩
          ((entriesOf 0 0 [⟨[0, 5], [7], .Normal⟩]).filter
            (mergeLive [([5], ⟨0, 0⟩)]))).1,
        [] ++
          (rewriteSelected ⟨4096, .BTree, DataFile.new 0 [], [], [], 1⟩
            ((entriesOf 0 0 [⟨[0, 5], [7], .Normal⟩]).filter
              (mergeLive [([5], ⟨0, 0⟩)]))).2) ∧
    allRecords ((rewriteSelected ⟨4096, .BTree, DataFile.new 0 [], [], [], 1⟩
        ((entriesOf 0 0 [⟨[0, 5], [7], .Normal⟩]).filter
          (mergeLive [([5], ⟨0, 0⟩)]))).1,
      ([] : List LogRecord) ++
        (rewriteSelected ⟨4096, .BTree, DataFile.new 0 [], [], [], 1⟩
          ((entriesOf 0 0 [⟨[0, 5], [7], .Normal⟩]).filter
            (mergeLive [([5], ⟨0, 0⟩)]))).2).1 =
      allRecords ⟨4096, .BTree, DataFile.new 0 [], [], [], 1⟩ ++
        ((entriesOf 0 0 [⟨[0, 5], [7], .Normal⟩]).filter
          (mergeLive [([5], ⟨0, 0⟩)])).map rewrittenRecord ∧
    (((rewriteSelected ⟨4096, .BTree, DataFile.new 0 [], [], [], 1⟩
        ((entriesOf 0 0 [⟨[0, 5], [7], .Normal⟩]).filter
          (mergeLive [([5], ⟨0, 0⟩)]))).1,
      ([] : List LogRecord) ++
        (rewriteSelected ⟨4096, .BTree, DataFile.new 0 [], [], [], 1⟩
          ((entriesOf 0 0 [⟨[0, 5], [7], .Normal⟩]).filter
            (mergeLive [([5], ⟨0, 0⟩)]))).2).2).map (fun r => r.key) =
      ([] : List LogRecord).map (fun r => r.key) ++
        ((entriesOf 0 0 [⟨[0, 5], [7], .Normal⟩]).filter
          (mergeLive [([5], ⟨0, 0⟩)])).map realKeyOf :=
  merge_rewrites_exactly_live [([5], ⟨0, 0⟩)] 0 [⟨[0, 5], [7], .Normal⟩]
    ⟨4096, .BTree, DataFile.new 0 [], [], [], 1⟩ [] _ (by decide)

/-! Lemmas about the transaction-group map. -/

theorem groupsGet_push_same (g : TxnGroups) (s : Nat) (tr : TransactionRecord) :
    groupsGet (groupsPush g s tr) s = some ((groupsGet g s).getD [] ++ [tr]) := by
  induction g with
  | nil => simp [groupsPush, groupsGet]
  | cons kv rest ih =>
    rcases kv with ⟨s', trs⟩
    by_cases h : s' = s
    · subst h
      simp [groupsPush, groupsGet]
    · simp only [groupsPush, if_neg h, groupsGet, if_neg h]
      exact ih

theorem groupsGet_push_other (g : TxnGroups) (s s' : Nat) (tr : TransactionRecord)
    (h : s' ≠ s) : groupsGet (groupsPush g s' tr) s = groupsGet g s := by
  induction g with
  | nil => simp [groupsPush, groupsGet, h]
  | cons kv rest ih =>
    rcases kv with ⟨s₀, trs⟩
    by_cases h0 : s₀ = s'
    · subst h0
      simp only [groupsPush, if_true]
      simp only [groupsGet]
      rw [if_neg h, if_neg h]
    · simp only [groupsPush, if_neg h0, groupsGet]
      by_cases h1 : s₀ = s
      · rw [if_pos h1, if_pos h1]
      · rw [if_neg h1, if_neg h1]
        exact ih

theorem groupsGet_remove_other (g : TxnGroups) (s s' : Nat) (h : s' ≠ s) :
    groupsGet (groupsRemove g s') s = groupsGet g s := by
  induction g with
  | nil => simp [groupsRemove, groupsGet]
  | cons kv rest ih =>
    rcases kv with ⟨s₀, trs⟩
    by_cases h0 : s₀ = s'
    · subst h0
      simp only [groupsRemove, if_true]
      simp only [groupsGet]
      rw [if_neg h]
    · simp only [groupsRemove, if_neg h0, groupsGet]
      by_cases h1 : s₀ = s
      · rw [if_pos h1, if_pos h1]
      · rw [if_neg h1, if_neg h1]
        exact ih

theorem groupsGet_eq_none_of_not_mem (g : TxnGroups) (s : Nat)
    (h : s ∉ g.map Prod.fst) : groupsGet g s = none := by
  induction g with
  | nil => simp [groupsGet]
  | cons kv rest ih =>
    rcases kv with ⟨s₀, trs⟩
    rw [List.map_cons, List.mem_cons] at h
    have h1 : ¬ s₀ = s := fun hq => h (Or.inl hq.symm)
    have h2 : s ∉ rest.map Prod.fst := fun hq => h (Or.inr hq)
    simp only [groupsGet]
    rw [if_neg h1]
    exact ih h2

theorem groupsGet_remove_same (g : TxnGroups) (s : Nat)
    (hnd : (g.map Prod.fst).Nodup) : groupsGet (groupsRemove g s) s = none := by
  induction g with
  | nil => simp [groupsRemove, groupsGet]
  | cons kv rest ih =>
    rcases kv with ⟨s₀, trs⟩
    rw [List.map_cons, List.nodup_cons] at hnd
    by_cases h0 : s₀ = s
    · subst h0
      simp only [groupsRemove, if_true]
      exact groupsGet_eq_none_of_not_mem rest s₀ hnd.1
    · simp only [groupsRemove, if_neg h0, groupsGet, if_neg h0]
      exact ih hnd.2

theorem groupsPush_keys_sub (g : TxnGroups) (s : Nat) (tr : TransactionRecord) :
    ∀ x, x ∈ (groupsPush g s tr).map Prod.fst → x = s ∨ x ∈ g.map Prod.fst := by
  induction g with
  | nil =>
    intro x hx
    simp [groupsPush] at hx
    exact Or.inl hx
  | cons kv rest ih =>
    rcases kv with ⟨s₀, trs⟩
    intro x hx
    by_cases h0 : s₀ = s
    · subst h0
      simp only [groupsPush, if_true] at hx
      rw [List.map_cons, List.mem_cons] at hx
      rcases hx with hx | hx
      · exact Or.inr (by simp [hx])
      · exact Or.inr (by simp [hx])
    · simp only [groupsPush, if_neg h0, List.map_cons, List.mem_cons] at hx
      rcases hx with hx | hx
      · exact Or.inr (by simp [hx])
      · rcases ih x hx with hx' | hx'
        · exact Or.inl hx'
        · exact Or.inr (by simp [hx'])

theorem groupsPush_keys_nodup (g : TxnGroups) (s : Nat) (tr : TransactionRecord)
    (hnd : (g.map Prod.fst).Nodup) :
    ((groupsPush g s tr).map Prod.fst).Nodup := by
  induction g with
  | nil => simp [groupsPush]
  | cons kv rest ih =>
    rcases kv with ⟨s₀, trs⟩
    rw [List.map_cons, List.nodup_cons] at hnd
    by_cases h0 : s₀ = s
    · subst h0
      simp only [groupsPush, if_true]
      rw [List.map_cons, List.nodup_cons]
      exact hnd
    · simp only [groupsPush, if_neg h0]
      rw [List.map_cons, List.nodup_cons]
      refine ⟨?_, ih hnd.2⟩
      intro hq
      rcases groupsPush_keys_sub rest s tr s₀ hq with hx | hx
      · exact h0 hx
      · exact hnd.1 hx

theorem groupsRemove_keys_sub (g : TxnGroups) (s : Nat) :
    ∀ x, x ∈ (groupsRemove g s).map Prod.fst → x ∈ g.map Prod.fst := by
  induction g with
  | nil => simp [groupsRemove]
  | cons kv rest ih =>
    rcases kv with ⟨s₀, trs⟩
    intro x hx
    by_cases h0 : s₀ = s
    · subst h0
      simp only [groupsRemove, if_true] at hx
      exact List.mem_cons_of_mem _ hx
    · simp only [groupsRemove, if_neg h0, List.map_cons, List.mem_cons] at hx
      rcases hx with hx | hx
      · simp [hx]
      · exact List.mem_cons_of_mem _ (ih x hx)

theorem groupsRemove_keys_nodup (g : TxnGroups) (s : Nat)
    (hnd : (g.map Prod.fst).Nodup) :
    ((groupsRemove g s).map Prod.fst).Nodup := by
  induction g with
  | nil => simp [groupsRemove]
  | cons kv rest ih =>
    rcases kv with ⟨s₀, trs⟩
    rw [List.map_cons, List.nodup_cons] at hnd
    by_cases h0 : s₀ = s
    · subst h0
      simp only [groupsRemove, if_true]
      exact hnd.2
    · simp only [groupsRemove, if_neg h0]
      rw [List.map_cons, List.nodup_cons]
      refine ⟨fun hq => hnd.1 (groupsRemove_keys_sub rest s s₀ hq), ih hnd.2⟩

/-! Characterization of one startup-scan step. -/

theorem scanRecordStep_cases (fid offset : Nat) (r : LogRecord) (st st₁ : ScanState)
    (h : scanRecordStep fid offset r st = some (.ok st₁)) :
    ∃ seq key, parse_record_sequence_number_with_key r.key = some (seq, key) ∧
    ((seq = 0 ∧ ∃ idx, update_index st.index key r.rec_type ⟨fid, offset⟩ = .ok idx ∧
        st₁ = ⟨idx, st.groups, max st.current_seq seq,
                st.applied ++ [(key, r.rec_type, ⟨fid, offset⟩)]⟩) ∨
     (seq ≠ 0 ∧ r.rec_type = .TxnFinished ∧
        ∃ trs idx, groupsGet st.groups seq = some trs ∧
          applyGroup st.index trs = .ok idx ∧
          st₁ = ⟨idx, groupsRemove st.groups seq, max st.current_seq seq,
                  st.applied ++ groupApplied trs⟩) ∨
     (seq ≠ 0 ∧ r.rec_type ≠ .TxnFinished ∧
        st₁ = ⟨st.index, groupsPush st.groups seq ⟨⟨key, r.value, r.rec_type⟩, ⟨fid, offset⟩⟩,
                max st.current_seq seq, st.applied⟩)) := by
  unfold scanRecordStep at h
  rcases hp : parse_record_sequence_number_with_key r.key with _ | sk
  · rw [hp] at h
    simp at h
  · rcases sk with ⟨seq, key⟩
    rw [hp] at h
    simp only at h
    refine ⟨seq, key, rfl, ?_⟩
    by_cases h0 : seq = NON_TRANSACTION_SEQ_NUMBER
    · rw [if_pos h0] at h
      rcases hui : update_index st.index key r.rec_type ⟨fid, offset⟩ with er | idx
      · rw [hui] at h
        simp at h
      · rw [hui] at h
        simp only [Option.some.injEq, Except.ok.injEq] at h
        exact Or.inl ⟨h0, idx, rfl, h.symm⟩
    · rw [if_neg h0] at h
      by_cases hfin : r.rec_type = LogRecordType.TxnFinished
      · rw [if_pos hfin] at h
        rcases hg : groupsGet st.groups seq with _ | trs
        · rw [hg] at h
          simp at h
        · rw [hg] at h
          simp only at h
          rcases hag : applyGroup st.index trs with er | idx
          · rw [hag] at h
            simp at h
          · rw [hag] at h
            simp only [Option.some.injEq, Except.ok.injEq] at h
            exact Or.inr (Or.inl ⟨h0, hfin, trs, idx, rfl, hag, h.symm⟩)
      · rw [if_neg hfin] at h
        simp only [Option.some.injEq, Except.ok.injEq] at h
        exact Or.inr (Or.inr ⟨h0, hfin, h.symm⟩)

theorem scanEntries_cons_ok (p : LogRecordPos) (r : LogRecord)
    (rest : List (LogRecordPos × LogRecord)) (st stF : ScanState)
    (h : scanEntries st ((p, r) :: rest) = some (.ok stF)) :
    ∃ st₁, scanRecordStep p.file_id p.offset r st = some (.ok st₁) ∧
      scanEntries st₁ rest = some (.ok stF) := by
  rcases hstep : scanRecordStep p.file_id p.offset r st with _ | res
  · rw [show scanEntries st ((p, r) :: rest) =
      match scanRecordStep p.file_id p.offset r st with
      | some (.ok st') => scanEntries st' rest
      | other => other from rfl, hstep] at h
    simp at h
  · rcases res with er | st₁
    · rw [show scanEntries st ((p, r) :: rest) =
        match scanRecordStep p.file_id p.offset r st with
        | some (.ok st') => scanEntries st' rest
        | other => other from rfl, hstep] at h
      simp at h
    · refine ⟨st₁, rfl, ?_⟩
      rw [show scanEntries st ((p, r) :: rest) =
        match scanRecordStep p.file_id p.offset r st with
        | some (.ok st') => scanEntries st' rest
        | other => other from rfl, hstep] at h
      exact h

theorem scanRecordStep_groups_nodup (fid offset : Nat) (r : LogRecord) (st st₁ : ScanState)
    (h : scanRecordStep fid offset r st = some (.ok st₁))
    (hnd : (st.groups.map Prod.fst).Nodup) : (st₁.groups.map Prod.fst).Nodup := by
  obtain ⟨seq, key, hp, hc⟩ := scanRecordStep_cases fid offset r st st₁ h
  rcases hc with ⟨_, idx, _, hst⟩ | ⟨_, _, trs, idx, _, _, hst⟩ | ⟨_, _, hst⟩
  · rw [hst]
    exact hnd
  · rw [hst]
    exact groupsRemove_keys_nodup _ _ hnd
  · rw [hst]
    exact groupsPush_keys_nodup _ _ _ hnd

theorem scanEntries_applied_mono (es : List (LogRecordPos × LogRecord)) :
    ∀ (st stF : ScanState), scanEntries st es = some (.ok stF) →
      ∀ t, t ∈ st.applied → t ∈ stF.applied := by
  induction es with
  | nil =>
    intro st stF h t ht
    simp only [scanEntries, Option.some.injEq, Except.ok.injEq] at h
    rw [← h]
    exact ht
  | cons e rest ih =>
    intro st stF h t ht
    rcases e with ⟨p, r⟩
    obtain ⟨st₁, hstep, hrest⟩ := scanEntries_cons_ok p r rest st stF h
    obtain ⟨seq, key, hp, hc⟩ := scanRecordStep_cases _ _ _ _ _ hstep
    apply ih st₁ stF hrest
    rcases hc with ⟨_, idx, _, hst⟩ | ⟨_, _, trs, idx, _, _, hst⟩ | ⟨_, _, hst⟩
    · rw [hst]
      simp only []
      exact List.mem_append_left _ ht
    · rw [hst]
      simp only []
      exact List.mem_append_left _ ht
    · rw [hst]
      exact ht

theorem markerIn_cons (s : Nat) (p : LogRecordPos) (r : LogRecord)
    (rest : List (LogRecordPos × LogRecord)) :
    markerIn s ((p, r) :: rest) =
      ((((p, r).2.rec_type == LogRecordType.TxnFinished) && (entrySeq (p, r) == some s))
        || markerIn s rest) := rfl

theorem groupApplied_append (l l' : List TransactionRecord) :
    groupApplied (l ++ l') = groupApplied l ++ groupApplied l' := by
  simp [groupApplied]

theorem scan_flushes_pending (es : List (LogRecordPos × LogRecord)) :
    ∀ (st stF : ScanState) (s : Nat) (l : List TransactionRecord) (t : AppliedEntry),
      scanEntries st es = some (.ok stF) →
      (st.groups.map Prod.fst).Nodup →
      s ≠ 0 →
      groupsGet st.groups s = some l →
      t ∈ groupApplied l →
      markerIn s es = true →
      t ∈ stF.applied := by
  induction es with
  | nil =>
    intro st stF s l t _ _ _ _ _ hmark
    simp [markerIn] at hmark
  | cons e rest ih =>
    intro st stF s l t h hnd hs hget ht hmark
    rcases e with ⟨p, r⟩
    obtain ⟨st₁, hstep, hrest⟩ := scanEntries_cons_ok p r rest st stF h
    obtain ⟨seq, key, hp, hc⟩ := scanRecordStep_cases _ _ _ _ _ hstep
    have hent : entrySeq (p, r) = some seq := by
      simp [entrySeq, hp]
    have hnd₁ := scanRecordStep_groups_nodup _ _ _ _ _ hstep hnd
    rw [markerIn_cons, hent] at hmark
    rw [Bool.or_eq_true] at hmark
    rcases hc with ⟨h0, idx, hui, hst⟩ | ⟨h0, hfin, trs, idx, hg, hag, hst⟩ | ⟨h0, hfin, hst⟩
    · have hmark' : markerIn s rest = true := by
        rcases hmark with hh | hh
        · exfalso
          rw [Bool.and_eq_true] at hh
          have := hh.2
          rw [h0] at this
          simp at this
          exact hs this.symm
        · exact hh
      have hgroups₁ : st₁.groups = st.groups := by
        rw [hst]
      exact ih st₁ stF s l t hrest (by rw [hgroups₁]; exact hnd) hs
        (by rw [hgroups₁]; exact hget) ht hmark'
    · by_cases hss : seq = s
      · subst hss
        have htrs : l = trs := by
          rw [hget] at hg
          exact (Option.some.injEq _ _).mp hg
        subst htrs
        have ht₁ : t ∈ st₁.applied := by
          rw [hst]
          exact List.mem_append_right _ ht
        exact scanEntries_applied_mono rest st₁ stF hrest t ht₁
      · have hmark' : markerIn s rest = true := by
          rcases hmark with hh | hh
          · exfalso
            rw [Bool.and_eq_true] at hh
            have := hh.2
            simp at this
            exact hss this
          · exact hh
        have hget₁ : groupsGet st₁.groups s = some l := by
          rw [hst]
          simp only []
          rw [groupsGet_remove_other _ _ _ hss]
          exact hget
        exact ih st₁ stF s l t hrest hnd₁ hs hget₁ ht hmark'
    · have hmark' : markerIn s rest = true := by
        rcases hmark with hh | hh
        · exfalso
          rw [Bool.and_eq_true] at hh
          have := hh.1
          simp at this
          exact hfin this
        · exact hh
      by_cases hss : seq = s
      · subst hss
        have hget₁ : groupsGet st₁.groups seq =
            some (l ++ [⟨⟨key, r.value, r.rec_type⟩, p⟩]) := by
          rw [hst]
          simp only []
          rw [groupsGet_push_same, hget]
          rfl
        have ht₁ : t ∈ groupApplied (l ++ [⟨⟨key, r.value, r.rec_type⟩, p⟩]) := by
          rw [groupApplied_append]
          exact List.mem_append_left _ ht
        exact ih st₁ stF seq (l ++ [⟨⟨key, r.value, r.rec_type⟩, p⟩]) t hrest hnd₁ hs
          hget₁ ht₁ hmark'
      · have hget₁ : groupsGet st₁.groups s = some l := by
          rw [hst]
          simp only []
          rw [groupsGet_push_other _ _ _ _ hss]
          exact hget
        exact ih st₁ stF s l t hrest hnd₁ hs hget₁ ht hmark'

theorem scan_applied_of_marker (es₁ : List (LogRecordPos × LogRecord)) :
    ∀ (st stF : ScanState) (e : LogRecordPos × LogRecord)
      (es₂ : List (LogRecordPos × LogRecord)) (s : Nat),
      scanEntries st (es₁ ++ e :: es₂) = some (.ok stF) →
      (st.groups.map Prod.fst).Nodup →
      entrySeq e = some s → s ≠ 0 → e.2.rec_type ≠ LogRecordType.TxnFinished →
      markerIn s es₂ = true →
      tripleOf e ∈ stF.applied := by
  induction es₁ with
  | nil =>
    intro st stF e es₂ s h hnd hseq hs hfin hmark
    rcases e with ⟨p, r⟩
    rw [List.nil_append] at h
    obtain ⟨st₁, hstep, hrest⟩ := scanEntries_cons_ok p r es₂ st stF h
    obtain ⟨seq, key, hp, hc⟩ := scanRecordStep_cases _ _ _ _ _ hstep
    have hnd₁ := scanRecordStep_groups_nodup _ _ _ _ _ hstep hnd
    have hseqs : seq = s := by
      simp [entrySeq, hp] at hseq
      exact hseq
    subst hseqs
    rcases hc with ⟨h0, _, _, _⟩ | ⟨_, hfin', _, _, _, _, _⟩ | ⟨h0, _, hst⟩
    · exact absurd h0 hs
    · exact absurd hfin' hfin
    · have htrip : tripleOf (p, r) = (key, r.rec_type, p) := by
        simp [tripleOf, hp]
      rw [htrip]
      have hget₁ : groupsGet st₁.groups seq =
          some ((groupsGet st.groups seq).getD [] ++
            [⟨⟨key, r.value, r.rec_type⟩, ⟨p.file_id, p.offset⟩⟩]) := by
        rw [hst]
        simp only []
        rw [groupsGet_push_same]
      have hmem : (key, r.rec_type, p) ∈ groupApplied
          ((groupsGet st.groups seq).getD [] ++
            [⟨⟨key, r.value, r.rec_type⟩, ⟨p.file_id, p.offset⟩⟩]) := by
        rw [groupApplied_append]
        apply List.mem_append_right
        simp [groupApplied]
      exact scan_flushes_pending es₂ st₁ stF seq _ _ hrest hnd₁ hs hget₁ hmem hmark
  | cons e₁ es₁' ih =>
    intro st stF e es₂ s h hnd hseq hs hfin hmark
    rcases e₁ with ⟨p₁, r₁⟩
    rw [List.cons_append] at h
    obtain ⟨st₁, hstep, hrest⟩ := scanEntries_cons_ok p₁ r₁ _ st stF h
    have hnd₁ := scanRecordStep_groups_nodup _ _ _ _ _ hstep hnd
    exact ih st₁ stF e es₂ s hrest hnd₁ hseq hs hfin hmark

theorem markerIn_of_tail (s : Nat) (p : LogRecordPos) (r : LogRecord)
    (rest : List (LogRecordPos × LogRecord)) (h : markerIn s rest = true) :
    markerIn s ((p, r) :: rest) = true := by
  rw [markerIn_cons, Bool.or_eq_true]
  exact Or.inr h

theorem markerIn_of_head (s : Nat) (p : LogRecordPos) (r : LogRecord)
    (rest : List (LogRecordPos × LogRecord))
    (hty : r.rec_type = LogRecordType.TxnFinished) (hsq : entrySeq (p, r) = some s) :
    markerIn s ((p, r) :: rest) = true := by
  rw [markerIn_cons, Bool.or_eq_true]
  left
  rw [Bool.and_eq_true]
  constructor
  · simp [hty]
  · simp [hsq]

theorem scan_applied_source (es : List (LogRecordPos × LogRecord)) :
    ∀ (st stF : ScanState) (t : AppliedEntry),
      scanEntries st es = some (.ok stF) →
      (st.groups.map Prod.fst).Nodup →
      t ∈ stF.applied →
      t ∈ st.applied ∨
      (∃ s l, s ≠ 0 ∧ groupsGet st.groups s = some l ∧ t ∈ groupApplied l ∧
        markerIn s es = true) ∨
      (∃ es₁ e es₂, es = es₁ ++ e :: es₂ ∧ t = tripleOf e ∧
        (entrySeq e = some 0 ∨
         (e.2.rec_type ≠ LogRecordType.TxnFinished ∧
          ∃ s, entrySeq e = some s ∧ s ≠ 0 ∧ markerIn s es₂ = true))) := by
  induction es with
  | nil =>
    intro st stF t h _ htF
    simp only [scanEntries, Option.some.injEq, Except.ok.injEq] at h
    rw [← h] at htF
    exact Or.inl htF
  | cons hd rest ih =>
    intro st stF t h hnd htF
    rcases hd with ⟨p, r⟩
    obtain ⟨st₁, hstep, hrest⟩ := scanEntries_cons_ok p r rest st stF h
    obtain ⟨seq, key, hp, hc⟩ := scanRecordStep_cases _ _ _ _ _ hstep
    have hnd₁ := scanRecordStep_groups_nodup _ _ _ _ _ hstep hnd
    have hent : entrySeq (p, r) = some seq := by
      simp [entrySeq, hp]
    have htrip : tripleOf (p, r) = (key, r.rec_type, (⟨p.file_id, p.offset⟩ : LogRecordPos)) := by
      simp [tripleOf, hp]
    rcases hc with ⟨h0, idx, hui, hst⟩ | ⟨h0, hfin, trs, idx, hg, hag, hst⟩ | ⟨h0, hfin, hst⟩
    · -- auto-commit record: applied immediately
      rcases ih st₁ stF t hrest hnd₁ htF with t1 | ⟨s, l, hs, hget₁, htl, hmk⟩ |
        ⟨es₁, e, es₂, hsp, hte, hcase⟩
      · rw [hst] at t1
        simp only [] at t1
        rcases List.mem_append.mp t1 with t1 | t1
        · exact Or.inl t1
        · rw [List.mem_singleton] at t1
          refine Or.inr (Or.inr ⟨[], (p, r), rest, rfl, ?_, Or.inl ?_⟩)
          · rw [htrip, t1]
          · rw [hent, h0]
      · refine Or.inr (Or.inl ⟨s, l, hs, ?_, htl, markerIn_of_tail s p r rest hmk⟩)
        rw [hst] at hget₁
        exact hget₁
      · exact Or.inr (Or.inr ⟨(p, r) :: es₁, e, es₂, by rw [hsp]; rfl, hte, hcase⟩)
    · -- a TxnFinished marker: its buffered group is applied
      rcases ih st₁ stF t hrest hnd₁ htF with t1 | ⟨s, l, hs, hget₁, htl, hmk⟩ |
        ⟨es₁, e, es₂, hsp, hte, hcase⟩
      · rw [hst] at t1
        simp only [] at t1
        rcases List.mem_append.mp t1 with t1 | t1
        · exact Or.inl t1
        · exact Or.inr (Or.inl ⟨seq, trs, h0, hg, t1,
            markerIn_of_head seq p r rest hfin hent⟩)
      · rw [hst] at hget₁
        simp only [] at hget₁
        by_cases hss : s = seq
        · subst hss
          rw [groupsGet_remove_same st.groups s hnd] at hget₁
          exact absurd hget₁ (by simp)
        · rw [groupsGet_remove_other _ _ _ (by omega)] at hget₁
          exact Or.inr (Or.inl ⟨s, l, hs, hget₁, htl, markerIn_of_tail s p r rest hmk⟩)
      · exact Or.inr (Or.inr ⟨(p, r) :: es₁, e, es₂, by rw [hsp]; rfl, hte, hcase⟩)
    · -- a transactional record: buffered into its group
      rcases ih st₁ stF t hrest hnd₁ htF with t1 | ⟨s, l, hs, hget₁, htl, hmk⟩ |
        ⟨es₁, e, es₂, hsp, hte, hcase⟩
      · rw [hst] at t1
        exact Or.inl t1
      · rw [hst] at hget₁
        simp only [] at hget₁
        by_cases hss : s = seq
        · subst hss
          rw [groupsGet_push_same] at hget₁
          have hleq : l = (groupsGet st.groups s).getD [] ++
              [⟨⟨key, r.value, r.rec_type⟩, ⟨p.file_id, p.offset⟩⟩] :=
            ((Option.some.injEq _ _).mp hget₁).symm
          rw [hleq, groupApplied_append] at htl
          rcases List.mem_append.mp htl with htl | htl
          · rcases hgd : groupsGet st.groups s with _ | g
            · rw [hgd] at htl
              simp [groupApplied] at htl
            · rw [hgd] at htl
              exact Or.inr (Or.inl ⟨s, g, hs, hgd, htl,
                markerIn_of_tail s p r rest hmk⟩)
          · simp only [groupApplied, List.map_cons, List.map_nil,
              List.mem_singleton] at htl
            refine Or.inr (Or.inr ⟨[], (p, r), rest, rfl, ?_, Or.inr ⟨hfin, s, hent, hs, hmk⟩⟩)
            rw [htrip, htl]
        · rw [groupsGet_push_other _ _ _ _ (by omega)] at hget₁
          exact Or.inr (Or.inl ⟨s, l, hs, hget₁, htl, markerIn_of_tail s p r rest hmk⟩)
      · exact Or.inr (Or.inr ⟨(p, r) :: es₁, e, es₂, by rw [hsp]; rfl, hte, hcase⟩)

/-! Positions in the scanned entry stream are pairwise distinct. -/

theorem entriesOf_pos_fid (fid : Nat) (rs : List LogRecord) :
    ∀ (offset : Nat) (pr : LogRecordPos × LogRecord),
      pr ∈ entriesOf fid offset rs → pr.1.file_id = fid := by
  induction rs with
  | nil =>
    intro offset pr hpr
    simp [entriesOf] at hpr
  | cons r rest ih =>
    intro offset pr hpr
    rw [show entriesOf fid offset (r :: rest) =
      (⟨fid, offset⟩, r) :: entriesOf fid (offset + encodedLength r) rest from rfl,
      List.mem_cons] at hpr
    rcases hpr with hpr | hpr
    · rw [hpr]
    · exact ih (offset + encodedLength r) pr hpr

theorem entriesOf_pos_ge (fid : Nat) (rs : List LogRecord) :
    ∀ (offset : Nat) (pr : LogRecordPos × LogRecord),
      pr ∈ entriesOf fid offset rs → offset ≤ pr.1.offset := by
  induction rs with
  | nil =>
    intro offset pr hpr
    simp [entriesOf] at hpr
  | cons r rest ih =>
    intro offset pr hpr
    rw [show entriesOf fid offset (r :: rest) =
      (⟨fid, offset⟩, r) :: entriesOf fid (offset + encodedLength r) rest from rfl,
      List.mem_cons] at hpr
    rcases hpr with hpr | hpr
    · rw [hpr]
    · have := ih (offset + encodedLength r) pr hpr
      omega

theorem entriesOf_pos_nodup (fid : Nat) (rs : List LogRecord) :
    ∀ offset : Nat, ((entriesOf fid offset rs).map (fun pr => pr.1)).Nodup := by
  induction rs with
  | nil =>
    intro offset
    simp [entriesOf]
  | cons r rest ih =>
    intro offset
    rw [show entriesOf fid offset (r :: rest) =
      (⟨fid, offset⟩, r) :: entriesOf fid (offset + encodedLength r) rest from rfl,
      List.map_cons, List.nodup_cons]
    refine ⟨?_, ih (offset + encodedLength r)⟩
    intro hq
    rw [List.mem_map] at hq
    obtain ⟨pr, hpr, hpos⟩ := hq
    have hge := entriesOf_pos_ge fid rest (offset + encodedLength r) pr hpr
    have hlen := encodedLength_pos r
    have : pr.1.offset = offset := by
      rw [hpos]
    omega

theorem scannedEntries_fid_mem (files : List (Nat × List LogRecord)) :
    ∀ pr ∈ scannedEntries files, pr.1.file_id ∈ files.map Prod.fst := by
  induction files with
  | nil =>
    intro pr hpr
    simp [scannedEntries] at hpr
  | cons f rest ih =>
    rcases f with ⟨fid, rs⟩
    intro pr hpr
    rw [show scannedEntries ((fid, rs) :: rest) =
      entriesOf fid 0 rs ++ scannedEntries rest by simp [scannedEntries],
      List.mem_append] at hpr
    rcases hpr with hpr | hpr
    · rw [List.map_cons, List.mem_cons]
      exact Or.inl (entriesOf_pos_fid fid rs 0 pr hpr)
    · rw [List.map_cons, List.mem_cons]
      exact Or.inr (ih pr hpr)

theorem scannedEntries_pos_nodup (files : List (Nat × List LogRecord))
    (hnd : (files.map Prod.fst).Nodup) :
    ((scannedEntries files).map (fun pr => pr.1)).Nodup := by
  induction files with
  | nil => simp [scannedEntries]
  | cons f rest ih =>
    rcases f with ⟨fid, rs⟩
    rw [List.map_cons, List.nodup_cons] at hnd
    rw [show scannedEntries ((fid, rs) :: rest) =
      entriesOf fid 0 rs ++ scannedEntries rest by simp [scannedEntries],
      List.map_append]
    apply List.Nodup.append (entriesOf_pos_nodup fid rs 0) (ih hnd.2)
    intro x hx hx'
    rw [List.mem_map] at hx hx'
    obtain ⟨pr, hpr, hpos⟩ := hx
    obtain ⟨pr', hpr', hpos'⟩ := hx'
    have h1 := entriesOf_pos_fid fid rs 0 pr hpr
    have h2 := scannedEntries_fid_mem rest pr' hpr'
    apply hnd.1
    have : pr.1 = pr'.1 := by
      rw [hpos, hpos']
    rw [← h1, this]
    exact h2

theorem split_unique {α β : Type} (f : α → β) :
    ∀ (a₁ : List α) (c₁ : List α) (b d : α) (a₂ c₂ : List α),
      ((a₁ ++ b :: a₂).map f).Nodup →
      a₁ ++ b :: a₂ = c₁ ++ d :: c₂ → f b = f d →
      a₁ = c₁ ∧ b = d ∧ a₂ = c₂ := by
  intro a₁
  induction a₁ with
  | nil =>
    intro c₁ b d a₂ c₂ hnd heq hf
    cases c₁ with
    | nil =>
      rw [List.nil_append, List.nil_append] at heq
      rw [List.cons.injEq] at heq
      exact ⟨rfl, heq.1, heq.2⟩
    | cons x c₁' =>
      exfalso
      rw [List.nil_append, List.cons_append, List.cons.injEq] at heq
      rw [List.nil_append, List.map_cons, List.nodup_cons] at hnd
      apply hnd.1
      rw [hf, heq.2]
      rw [List.map_append, List.mem_append]
      right
      rw [List.map_cons, List.mem_cons]
      exact Or.inl rfl
  | cons x a₁' ih =>
    intro c₁ b d a₂ c₂ hnd heq hf
    cases c₁ with
    | nil =>
      exfalso
      rw [List.nil_append] at heq
      rw [List.cons_append, List.cons.injEq] at heq
      rw [List.cons_append, List.map_cons, List.nodup_cons] at hnd
      apply hnd.1
      rw [show f x = f b by rw [hf, heq.1]]
      rw [List.map_append, List.mem_append]
      right
      rw [List.map_cons, List.mem_cons]
      exact Or.inl rfl
    | cons y c₁' =>
      rw [List.cons_append, List.cons_append, List.cons.injEq] at heq
      rw [List.cons_append, List.map_cons, List.nodup_cons] at hnd
      obtain ⟨h1, h2, h3⟩ := ih c₁' b d a₂ c₂ hnd.2 heq.2 hf
      exact ⟨by rw [heq.1, h1], h2, h3⟩

theorem tripleOf_pos (pr : LogRecordPos × LogRecord) : (tripleOf pr).2.2 = pr.1 := by
  unfold tripleOf
  rcases parse_record_sequence_number_with_key pr.2.key with _ | sk
  · rfl
  · rcases sk with ⟨a, b⟩
    rfl

/-- C2: during startup index reconstruction, a transactional record (sequence
number > 0) of the scanned log is applied to the index exactly when a
`TxnFinished` record with the same sequence number appears later in the scan;
a group whose marker never arrives is left buffered and discarded, never
applied, and (as the witness shows on a log ending in such an unterminated
group) the reload still succeeds. -/
theorem startup_txn_applied_iff
    (files : List (Nat × List LogRecord)) (hm : Bool) (uid : Nat) (idx₀ : BTreeIndex)
    (stF : ScanState)
    (es₁ es₂ : List (LogRecordPos × LogRecord)) (e : LogRecordPos × LogRecord) (s : Nat)
    (hload : load_index_from_data_files files hm uid idx₀ = some (.ok stF))
    (hnd : ((processedFiles files hm uid).map Prod.fst).Nodup)
    (hsplit : scannedEntries (processedFiles files hm uid) = es₁ ++ e :: es₂)
    (hseq : entrySeq e = some s) (hs : s ≠ 0)
    (ht : e.2.rec_type ≠ LogRecordType.TxnFinished) :
    tripleOf e ∈ stF.applied ↔ markerIn s es₂ = true := by
  have hfiles_ne : files ≠ [] := by
    intro hq
    subst hq
    cases hm <;> simp [processedFiles, scannedEntries] at hsplit
  unfold load_index_from_data_files at hload
  rw [if_neg hfiles_ne, loadFiles_eq_scanEntries, hsplit] at hload
  constructor
  · intro happ
    rcases scan_applied_source (es₁ ++ e :: es₂) ⟨idx₀, [], NON_TRANSACTION_SEQ_NUMBER, []⟩
        stF (tripleOf e) hload (by simp) happ with
      t1 | ⟨s', l, _, hget, _, _⟩ | ⟨f₁, e', f₂, hsp', hte', hcase⟩
    · simp at t1
    · simp [groupsGet] at hget
    · have hnodup_pos : ((es₁ ++ e :: es₂).map (fun pr => pr.1)).Nodup := by
        rw [← hsplit]
        exact scannedEntries_pos_nodup _ hnd
      have hfb : (fun pr : LogRecordPos × LogRecord => pr.1) e =
          (fun pr : LogRecordPos × LogRecord => pr.1) e' := by
        have h1 := tripleOf_pos e
        have h2 := tripleOf_pos e'
        simp only []
        rw [← h1, ← h2, ← hte']
      obtain ⟨he₁, hee, he₂⟩ := split_unique (fun pr => pr.1) es₁ f₁ e e' es₂ f₂
        hnodup_pos hsp' hfb
      subst hee
      subst he₂
      rcases hcase with hc0 | ⟨_, s', hseq', hs', hmk'⟩
      · rw [hseq] at hc0
        simp at hc0
        exact absurd hc0 hs
      · rw [hseq] at hseq'
        have hss' : s = s' := by
          simpa using hseq'
        rw [hss']
        exact hmk'
  · intro hmk
    exact scan_applied_of_marker es₁ ⟨idx₀, [], NON_TRANSACTION_SEQ_NUMBER, []⟩ stF e es₂ s
      hload (by simp) hseq hs ht hmk

theorem startup_txn_applied_iff_witness :
    tripleOf ((⟨0, 0⟩ : LogRecordPos), (⟨[1, 107], [9], .Normal⟩ : LogRecord)) ∈
        (⟨[], [(1, [⟨⟨[107], [9], .Normal⟩, ⟨0, 0⟩⟩])], 1, []⟩ : ScanState).applied ↔
      markerIn 1 [] = true :=
  startup_txn_applied_iff [(0, [⟨[1, 107], [9], .Normal⟩])] false 0 []
    ⟨[], [(1, [⟨⟨[107], [9], .Normal⟩, ⟨0, 0⟩⟩])], 1, []⟩ [] []
    ((⟨0, 0⟩ : LogRecordPos), (⟨[1, 107], [9], .Normal⟩ : LogRecord)) 1
    rfl (by decide) rfl rfl (by decide) (by decide)
